import Mathlib

/-!
Verification of the quake-inverse-sqrt crate (src/lib.rs) against its
specification.  The crate computes the classic Quake III fast inverse
square root: it reinterprets the bits of an IEEE-754 binary32 value as a
machine integer, applies the magic-constant step, reinterprets back and
runs one Newton-Raphson refinement.  A trait QSqrt exposes the operation
for f32, f64 and a list of integer types.

Floating point values are embedded exactly: a float is its bit pattern
(a natural number), and the arithmetic operations decode the pattern,
compute the exact result as a dyadic rational, and round to nearest with
ties to even, following IEEE-754.  Dyadic rationals are represented by a
mantissa and a power-of-two exponent so that every operation computes
with machine-accelerated natural and integer arithmetic; the bridge to
the rational value is used in proofs only.
-/
/-- Dyadic rational with a natural mantissa: the value is m * 2 ^ k.
Used for IEEE magnitudes, which are sign-free. -/
structure Dy where
  m : ℕ
  k : ℤ
  deriving DecidableEq

/-- Rational value of a dyadic magnitude. -/
def Dy.q (x : Dy) : ℚ := (x.m : ℚ) * (2 : ℚ) ^ x.k

/-- Product of dyadic magnitudes. -/
def dyMul (x y : Dy) : Dy := ⟨x.m * y.m, x.k + y.k⟩

/-- Scaling a dyadic magnitude by a power of two. -/
def dyShift (x : Dy) (z : ℤ) : Dy := ⟨x.m, x.k + z⟩

/-- Round a dyadic magnitude to the nearest natural number, ties to even. -/
def roundDy (x : Dy) : ℕ :=
  if 0 ≤ x.k then x.m * 2 ^ x.k.toNat
  else
    let s := (-x.k).toNat
    let n0 := x.m / 2 ^ s
    let r := x.m % 2 ^ s
    if r * 2 < 2 ^ s then n0
    else if 2 ^ s < r * 2 then n0 + 1
    else if n0 % 2 = 0 then n0 else n0 + 1

/-- Fueled base-two logarithm; with fuel at least n it returns the floor
of log2 n, and structural recursion on the fuel keeps it kernel-reducible. -/
def log2F : ℕ → ℕ → ℕ
  | 0, _ => 0
  | fuel + 1, n => if 2 ≤ n then log2F fuel (n / 2) + 1 else 0

/-- Floor of the base-two logarithm. -/
def log2N (n : ℕ) : ℕ := log2F n n

/-- Result of decoding a float bit pattern: a NaN, a signed infinity, or
a signed finite magnitude. -/
inductive FClass where
  | nan : FClass
  | inf : Bool → FClass
  | fin : Bool → Dy → FClass
  deriving DecidableEq

/-- Signed rational value of a decoded finite float; none for NaN and
infinities. -/
def FClass.qval : FClass → Option ℚ
  | FClass.fin s x => some (if s then -x.q else x.q)
  | _ => none

/-- Decode an IEEE-754 bit pattern with eb exponent bits and prec
significand bits (binary32: eb = 8, prec = 24; binary64: eb = 11,
prec = 53). -/
def decodeF (eb prec pat : ℕ) : FClass :=
  let E := pat / 2 ^ (prec - 1) % 2 ^ eb
  let M := pat % 2 ^ (prec - 1)
  let s : Bool := decide (pat / 2 ^ (eb + prec - 1) % 2 = 1)
  if E = 2 ^ eb - 1 then (if M = 0 then FClass.inf s else FClass.nan)
  else if E = 0 then FClass.fin s ⟨M, 2 - 2 ^ (eb - 1) - ((prec : ℤ) - 1)⟩
  else FClass.fin s ⟨2 ^ (prec - 1) + M, (E : ℤ) - (2 ^ (eb - 1) - 1) - ((prec : ℤ) - 1)⟩

/-- Bit pattern of a signed infinity. -/
def infPat (eb prec : ℕ) (s : Bool) : ℕ :=
  (if s then 2 ^ (eb + prec - 1) else 0) + (2 ^ eb - 1) * 2 ^ (prec - 1)

/-- Bit pattern of the canonical quiet NaN. -/
def nanPat (eb prec : ℕ) : ℕ := (2 ^ eb - 1) * 2 ^ (prec - 1) + 2 ^ (prec - 2)

/-- Encode a signed dyadic magnitude as an IEEE-754 bit pattern, rounding
to nearest with ties to even and overflowing to infinity. -/
def encodePat (eb prec : ℕ) (s : Bool) (mag : Dy) : ℕ :=
  let sb := if s then 2 ^ (eb + prec - 1) else 0
  if mag.m = 0 then sb
  else
    let e : ℤ := (log2N mag.m : ℕ) + mag.k
    let emin : ℤ := 2 - 2 ^ (eb - 1)
    if e < emin then
      sb + roundDy (dyShift mag (((prec : ℤ) - 1) - emin))
    else if ((2 : ℤ) ^ (eb - 1) - 1) < e then
      sb + (2 ^ eb - 1) * 2 ^ (prec - 1)
    else
      sb + ((e + (2 ^ (eb - 1) - 1)).toNat - 1) * 2 ^ (prec - 1)
         + roundDy (dyShift mag (((prec : ℤ) - 1) - e))

/-- Comparison of signed dyadic magnitudes: decides whether the first
signed value is at most the second, by aligning the exponents. -/
def sleB (s1 : Bool) (x : Dy) (s2 : Bool) (y : Dy) : Bool :=
  let k := min x.k y.k
  let a : ℤ := (if s1 then -(x.m : ℤ) else (x.m : ℤ)) * ((2 ^ (x.k - k).toNat : ℕ) : ℤ)
  let b : ℤ := (if s2 then -(y.m : ℤ) else (y.m : ℤ)) * ((2 ^ (y.k - k).toNat : ℕ) : ℤ)
  decide (a ≤ b)

/-- IEEE-754 multiplication on bit patterns. -/
def fmulP (eb prec a b : ℕ) : ℕ :=
  match decodeF eb prec a, decodeF eb prec b with
  | FClass.nan, _ => nanPat eb prec
  | _, FClass.nan => nanPat eb prec
  | FClass.inf s, FClass.inf t => infPat eb prec (xor s t)
  | FClass.inf s, FClass.fin t y => if y.m = 0 then nanPat eb prec else infPat eb prec (xor s t)
  | FClass.fin s x, FClass.inf t => if x.m = 0 then nanPat eb prec else infPat eb prec (xor s t)
  | FClass.fin s x, FClass.fin t y => encodePat eb prec (xor s t) (dyMul x y)

/-- IEEE-754 subtraction on bit patterns, with the round-to-nearest rule
for the sign of an exact zero result. -/
def fsubP (eb prec a b : ℕ) : ℕ :=
  match decodeF eb prec a, decodeF eb prec b with
  | FClass.nan, _ => nanPat eb prec
  | _, FClass.nan => nanPat eb prec
  | FClass.inf s, FClass.inf t => if s = t then nanPat eb prec else infPat eb prec s
  | FClass.inf s, FClass.fin _ _ => infPat eb prec s
  | FClass.fin _ _, FClass.inf t => infPat eb prec (!t)
  | FClass.fin s x, FClass.fin t y =>
    let k := min x.k y.k
    let a : ℤ := (if s then -(x.m : ℤ) else (x.m : ℤ)) * ((2 ^ (x.k - k).toNat : ℕ) : ℤ)
    let b : ℤ := (if t then -(y.m : ℤ) else (y.m : ℤ)) * ((2 ^ (y.k - k).toNat : ℕ) : ℤ)
    let d := a - b
    if d = 0 then
      (if s = true ∧ x.m = 0 ∧ t = false ∧ y.m = 0 then encodePat eb prec true ⟨0, 0⟩
       else encodePat eb prec false ⟨0, 0⟩)
    else encodePat eb prec (decide (d < 0)) ⟨d.natAbs, k⟩

/-- IEEE-754 less-or-equal on bit patterns: false whenever an operand is
NaN, otherwise the order on signed extended values. -/
def fleP (eb prec a b : ℕ) : Bool :=
  match decodeF eb prec a, decodeF eb prec b with
  | FClass.nan, _ => false
  | _, FClass.nan => false
  | FClass.inf s, FClass.inf t => s || !t
  | FClass.inf s, FClass.fin _ _ => s
  | FClass.fin _ _, FClass.inf t => !t
  | FClass.fin s x, FClass.fin t y => sleB s x t y

/-- IEEE-754 greater-or-equal on bit patterns. -/
def fgeP (eb prec a b : ℕ) : Bool := fleP eb prec b a

/-- Widening conversion from binary32 to binary64 (the Rust Into cast);
the conversion is exact on finite values. -/
def f32toF64 (pat : ℕ) : ℕ :=
  match decodeF 8 24 pat with
  | FClass.nan => nanPat 11 53
  | FClass.inf s => infPat 11 53 s
  | FClass.fin s x => encodePat 11 53 s x

/-- Narrowing conversion from binary64 to binary32 (the Rust as cast):
round to nearest, overflow becomes an infinity of the same sign. -/
def f64toF32 (pat : ℕ) : ℕ :=
  match decodeF 11 53 pat with
  | FClass.nan => nanPat 8 24
  | FClass.inf s => infPat 8 24 s
  | FClass.fin s x => encodePat 8 24 s x

/-- Conversion from a machine integer value to binary32 (the Rust as
cast): round to nearest with ties to even. -/
def intToF32 (z : ℤ) : ℕ := encodePat 8 24 (decide (z < 0)) ⟨z.natAbs, 0⟩

/-! Embedding of src/lib.rs. -/
/-- Constant THREE_HALFS: f32 = 1.5 from the source, as a bit pattern. -/
def THREE_HALFS : ℕ := 0x3fc00000

/-- Constant WTF: u32 = 0x5f3759df from the source (the magic constant). -/
def WTF : ℕ := 0x5f3759df

/-- Bit pattern of the f32 literal 0.5 appearing in the source
expression self * 0.5. -/
def halfLit : ℕ := 0x3f000000

/-- Error enum QSqrtError of the source, with its single variant. -/
inductive QSqrtError where
  | Overflow
  deriving DecidableEq

/-- Rust Result of an f32 bit pattern or a QSqrtError. -/
inductive QResult where
  | ok : ℕ → QResult
  | err : QSqrtError → QResult
  deriving DecidableEq

/-- Unwrapping a result: models Result::unwrap, whose failure case is a
panic, represented by none. -/
def QResult.toOption : QResult → Option ℕ
  | QResult.ok v => some v
  | QResult.err _ => none

/-- Body of the f32 implementation of fast_inverse_sqrt from the source:
  let mut y = *self;
  let x2: f32 = self * 0.5;
  i = transmute(y);            -- the bit pattern itself
  i = WTF - (i >> 1);          -- u32 arithmetic, wrapping on underflow
  y = transmute(i);
  y = y * (THREE_HALFS - (x2 * y * y));
The logical shift right by one bit is division by two, and the u32
subtraction is modeled with the wrapping (two complement) semantics of a
release build. -/
def invSqrtBody (self : ℕ) : ℕ :=
  let y := self
  let x2 := fmulP 8 24 self halfLit
  let i := y
  let i2 := (WTF + 2 ^ 32 - i / 2) % 2 ^ 32
  let y2 := i2
  fmulP 8 24 y2 (fsubP 8 24 THREE_HALFS (fmulP 8 24 (fmulP 8 24 x2 y2) y2))

/-- Rust f32, as its bit pattern. -/
structure F32 where
  pat : ℕ
  deriving DecidableEq

/-- Rust f64, as its bit pattern. -/
structure F64 where
  pat : ℕ
  deriving DecidableEq

/-- The trait QSqrt of the source.  All implementations in the source
set the associated Output type to f32, so the result carries an f32 bit
pattern. -/
class QSqrt (α : Type) where
  fast_inverse_sqrt : α → QResult

/-- Default trait method fast_inverse_sqrt_unchecked of the source:
self.fast_inverse_sqrt().unwrap(); a panic is modeled as none. -/
def fast_inverse_sqrt_unchecked {α : Type} [QSqrt α] (x : α) : Option ℕ :=
  (QSqrt.fast_inverse_sqrt x).toOption

/-- Implementation of QSqrt for f32 from the source: the algorithm body,
always returning Ok. -/
instance instQSqrtF32 : QSqrt F32 where
  fast_inverse_sqrt y := QResult.ok (invSqrtBody y.pat)

/-- Bit pattern of f32::MIN, the least finite f32 value. -/
def f32MINpat : ℕ := 0xff7fffff

/-- Bit pattern of f32::MAX, the greatest finite f32 value. -/
def f32MAXpat : ℕ := 0x7f7fffff

/-- Implementation of QSqrt for f64 from the source:
  if *self >= f32::MIN.into() && *self <= f32::MAX.into()
  then (*self as f32).fast_inverse_sqrt() else Err(Overflow). -/
instance instQSqrtF64 : QSqrt F64 where
  fast_inverse_sqrt v :=
    if (fgeP 11 53 v.pat (f32toF64 f32MINpat) && fleP 11 53 v.pat (f32toF64 f32MAXpat)) = true
    then QSqrt.fast_inverse_sqrt (F32.mk (f64toF32 v.pat))
    else QResult.err QSqrtError.Overflow

/-- Rust u8. -/
abbrev U8 := Fin (2 ^ 8)

/-- Rust u16. -/
abbrev U16 := Fin (2 ^ 16)

/-- Rust u32. -/
abbrev U32 := Fin (2 ^ 32)

/-- Rust usize, on the usual 64-bit target. -/
abbrev Usize := Fin (2 ^ 64)

/-- Rust i8. -/
abbrev I8 := {z : ℤ // -(2 ^ 7) ≤ z ∧ z < 2 ^ 7}

/-- Rust i16. -/
abbrev I16 := {z : ℤ // -(2 ^ 15) ≤ z ∧ z < 2 ^ 15}

/-- Rust i32. -/
abbrev I32 := {z : ℤ // -(2 ^ 31) ≤ z ∧ z < 2 ^ 31}

/-- Rust isize, on the usual 64-bit target. -/
abbrev Isize := {z : ℤ // -(2 ^ 63) ≤ z ∧ z < 2 ^ 63}

/-- Macro-generated implementation for u32: (*self as f32).fast_inverse_sqrt(). -/
instance instQSqrtU32 : QSqrt U32 where
  fast_inverse_sqrt n := QSqrt.fast_inverse_sqrt (F32.mk (intToF32 (n.val : ℤ)))

/-- Macro-generated implementation for u16. -/
instance instQSqrtU16 : QSqrt U16 where
  fast_inverse_sqrt n := QSqrt.fast_inverse_sqrt (F32.mk (intToF32 (n.val : ℤ)))

/-- Macro-generated implementation for u8. -/
instance instQSqrtU8 : QSqrt U8 where
  fast_inverse_sqrt n := QSqrt.fast_inverse_sqrt (F32.mk (intToF32 (n.val : ℤ)))

/-- Macro-generated implementation for i32. -/
instance instQSqrtI32 : QSqrt I32 where
  fast_inverse_sqrt n := QSqrt.fast_inverse_sqrt (F32.mk (intToF32 n.val))

/-- Macro-generated implementation for i16. -/
instance instQSqrtI16 : QSqrt I16 where
  fast_inverse_sqrt n := QSqrt.fast_inverse_sqrt (F32.mk (intToF32 n.val))

/-- Macro-generated implementation for i8. -/
instance instQSqrtI8 : QSqrt I8 where
  fast_inverse_sqrt n := QSqrt.fast_inverse_sqrt (F32.mk (intToF32 n.val))

/-- Macro-generated implementation for usize. -/
instance instQSqrtUsize : QSqrt Usize where
  fast_inverse_sqrt n := QSqrt.fast_inverse_sqrt (F32.mk (intToF32 (n.val : ℤ)))

/-- Macro-generated implementation for isize. -/
instance instQSqrtIsize : QSqrt Isize where
  fast_inverse_sqrt n := QSqrt.fast_inverse_sqrt (F32.mk (intToF32 n.val))

/-- The scalar numeric types of the Rust ecosystem that the spec speaks
about. -/
inductive RustType where
  | f32 | f64 | u8 | u16 | u32 | u64 | i8 | i16 | i32 | i64 | usize | isize
  deriving DecidableEq

/-- The types for which the source declares an implementation of QSqrt:
the two impl blocks for f32 and f64, and the invocation
impl_types!(u32, u16, u8, i32, i16, i8, usize, isize). -/
def qsqrtImplTypes : List RustType :=
  [RustType.f32, RustType.f64,
   RustType.u32, RustType.u16, RustType.u8,
   RustType.i32, RustType.i16, RustType.i8,
   RustType.usize, RustType.isize]

/-- Canonical algorithm as the spec words it: reinterpret the bits of y
as an unsigned 32-bit integer i, compute WTF - (i >> 1) in u32
arithmetic with a logical right shift, reinterpret back as a float y0,
and return y0 * (1.5 - (y * 0.5) * y0 * y0), one Newton-Raphson step. -/
def canonicalFastInverseSqrt (y : ℕ) : ℕ :=
  let i := y
  let i2 := (WTF + 2 ^ 32 - i / 2) % 2 ^ 32
  let y0 := i2
  fmulP 8 24 y0
    (fsubP 8 24 0x3fc00000 (fmulP 8 24 (fmulP 8 24 (fmulP 8 24 y 0x3f000000) y0) y0))

/-- Exponent computed by encodePat from the mantissa logarithm. -/
def eDy (x : Dy) : ℤ := (log2N x.m : ℕ) + x.k

/-- Signed value of a sign-magnitude pair. -/
def sv (s : Bool) (x : Dy) : ℚ := if s then -x.q else x.q

/-- Magnitude of a finite bit pattern; zero dummy for NaN and infinities. -/
def finMagD (pat : ℕ) : Dy :=
  match decodeF 8 24 pat with
  | FClass.fin _ m => m
  | _ => ⟨0, 0⟩

/-! Signed dyadic interval layer: a small verified interval arithmetic
used to certify, for every binary32 exponent class, that the quake
computation never leaves the finite range. -/
/-- Signed dyadic rational: the value is m * 2 ^ k with an integer
mantissa. -/
structure Zdy where
  m : ℤ
  k : ℤ
  deriving DecidableEq

/-- Rational value of a signed dyadic. -/
def Zdy.q (x : Zdy) : ℚ := (x.m : ℚ) * (2 : ℚ) ^ x.k

/-- Product of signed dyadics. -/
def zMul (x y : Zdy) : Zdy := ⟨x.m * y.m, x.k + y.k⟩

/-- Sum of signed dyadics, aligning the exponents. -/
def zAdd (x y : Zdy) : Zdy :=
  ⟨x.m * ((2 ^ (x.k - min x.k y.k).toNat : ℕ) : ℤ)
     + y.m * ((2 ^ (y.k - min x.k y.k).toNat : ℕ) : ℤ), min x.k y.k⟩

/-- Negation of a signed dyadic. -/
def zNeg (x : Zdy) : Zdy := ⟨-x.m, x.k⟩

/-- Difference of signed dyadics. -/
def zSub (x y : Zdy) : Zdy := zAdd x (zNeg y)

/-- Scaling a signed dyadic by a power of two. -/
def zShift (x : Zdy) (z : ℤ) : Zdy := ⟨x.m, x.k + z⟩

/-- Comparison of signed dyadics by aligning the exponents. -/
def zLe (x y : Zdy) : Bool :=
  decide (x.m * ((2 ^ (x.k - min x.k y.k).toNat : ℕ) : ℤ)
    ≤ y.m * ((2 ^ (y.k - min x.k y.k).toNat : ℕ) : ℤ))

/-- Minimum of signed dyadics. -/
def zMin (x y : Zdy) : Zdy := if zLe x y then x else y

/-- Maximum of signed dyadics. -/
def zMax (x y : Zdy) : Zdy := if zLe x y then y else x

/-- Closed interval with signed dyadic endpoints. -/
structure ZIv where
  lo : Zdy
  hi : Zdy

/-- Membership of a rational in the interval. -/
def ZIv.memQ (I : ZIv) (v : ℚ) : Prop := I.lo.q ≤ v ∧ v ≤ I.hi.q

/-- Interval product, by the four corner products. -/
def ZIv.mul (A B : ZIv) : ZIv :=
  ⟨zMin (zMin (zMul A.lo B.lo) (zMul A.lo B.hi)) (zMin (zMul A.hi B.lo) (zMul A.hi B.hi)),
   zMax (zMax (zMul A.lo B.lo) (zMul A.lo B.hi)) (zMax (zMul A.hi B.lo) (zMul A.hi B.hi))⟩

/-- Interval difference. -/
def ZIv.sub (A B : ZIv) : ZIv := ⟨zSub A.lo B.hi, zSub A.hi B.lo⟩

/-- A dyadic bound on the absolute value over the interval. -/
def ZIv.absMax (I : ZIv) : Zdy := zMax (zNeg I.lo) I.hi

/-- Outward widening of an interval by the binary32 rounding error of
its members: a relative step of 2 ^ -24 plus an absolute step of
2 ^ -150. -/
def ZIv.rnd (I : ZIv) : ZIv :=
  ⟨zSub I.lo (zAdd (zShift (ZIv.absMax I) (-24)) ⟨1, -150⟩),
   zAdd I.hi (zAdd (zShift (ZIv.absMax I) (-24)) ⟨1, -150⟩)⟩

/-- Checks that the interval stays within the safe range 2 ^ 127 used by
the rounding lemmas. -/
def inRange127 (I : ZIv) : Bool := zLe ⟨-1, 127⟩ I.lo && zLe I.hi ⟨1, 127⟩

/-! Per-exponent-class certificate that the quake computation stays
finite: for each binary32 exponent field E of a positive finite input,
interval arithmetic bounds every intermediate value of invSqrtBody. -/
/-- Least bit pattern of the class: positive, exponent field E. -/
def iLoC (E : ℕ) : ℕ := if E = 0 then 1 else E * 2 ^ 23

/-- Greatest bit pattern of the class. -/
def iHiC (E : ℕ) : ℕ := E * 2 ^ 23 + (2 ^ 23 - 1)

/-- Least resulting magic-step pattern over the class. -/
def jLoC (E : ℕ) : ℕ := WTF - iHiC E / 2

/-- Greatest resulting magic-step pattern over the class. -/
def jHiC (E : ℕ) : ℕ := WTF - iLoC E / 2

/-- Signed view of an unsigned dyadic. -/
def dToZ (x : Dy) : Zdy := ⟨(x.m : ℤ), x.k⟩

/-- Value interval of the input over the class. -/
def yIvC (E : ℕ) : ZIv := ⟨dToZ (finMagD (iLoC E)), dToZ (finMagD (iHiC E))⟩

/-- Value interval of the zeroth approximation over the class. -/
def y0IvC (E : ℕ) : ZIv := ⟨dToZ (finMagD (jLoC E)), dToZ (finMagD (jHiC E))⟩

/-- Point interval of the constant 0.5. -/
def halfIvC : ZIv := ⟨⟨1, -1⟩, ⟨1, -1⟩⟩

/-- Point interval of the constant 1.5. -/
def thIvC : ZIv := ⟨⟨3, -1⟩, ⟨3, -1⟩⟩

/-- Interval of x2 = y * 0.5. -/
def x2IvC (E : ℕ) : ZIv := (ZIv.mul (yIvC E) halfIvC).rnd

/-- Interval of x2 * y0. -/
def t1IvC (E : ℕ) : ZIv := (ZIv.mul (x2IvC E) (y0IvC E)).rnd

/-- Interval of x2 * y0 * y0. -/
def t2IvC (E : ℕ) : ZIv := (ZIv.mul (t1IvC E) (y0IvC E)).rnd

/-- Interval of 1.5 - x2 * y0 * y0. -/
def dIvC (E : ℕ) : ZIv := (ZIv.sub thIvC (t2IvC E)).rnd

/-- The per-class certificate: each operation of invSqrtBody receives
arguments whose exact product or difference stays within 2 ^ 127, so
every rounding lands on a finite float. -/
def c8Check (E : ℕ) : Bool :=
  inRange127 (ZIv.mul (yIvC E) halfIvC)
    && inRange127 (ZIv.mul (x2IvC E) (y0IvC E))
    && inRange127 (ZIv.mul (t1IvC E) (y0IvC E))
    && inRange127 (ZIv.sub thIvC (t2IvC E))
    && inRange127 (ZIv.mul (y0IvC E) (dIvC E))

/-! Helpers for the f64 range check of the source. -/
/-- Value of f32::MAX as a rational: (2 ^ 24 - 1) * 2 ^ 104. -/
def maxQ : ℚ := ((2 ^ 24 - 1 : ℕ) : ℚ) * (2 : ℚ) ^ (104 : ℤ)

/-- Bit pattern of the f64 literal 2.0. -/
def twoF64pat : ℕ := 0x4000000000000000

/-- The decoded value of a binary32 pattern lies strictly between the
two rational bounds. -/
def inBand (r : ℕ) (lo hi : ℚ) : Prop :=
  ∃ qv : ℚ, (decodeF 8 24 r).qval = some qv ∧ lo < qv ∧ qv < hi

/-! Bridging lemmas from the dyadic computation layer to rational values. -/
theorem Dy.q_nonneg (x : Dy) : 0 ≤ x.q := by
  unfold Dy.q
  positivity

theorem dyMul_q (x y : Dy) : (dyMul x y).q = x.q * y.q := by
  unfold dyMul Dy.q
  push_cast
  rw [zpow_add₀ (by norm_num : (2 : ℚ) ≠ 0)]
  ring

theorem dyShift_q (x : Dy) (z : ℤ) : (dyShift x z).q = x.q * (2 : ℚ) ^ z := by
  unfold dyShift Dy.q
  rw [zpow_add₀ (by norm_num : (2 : ℚ) ≠ 0)]
  ring

theorem log2F_spec : ∀ (fuel n : ℕ), 1 ≤ n → n ≤ fuel →
    2 ^ log2F fuel n ≤ n ∧ n < 2 ^ (log2F fuel n + 1) := by
  intro fuel
  induction fuel with
  | zero => intro n h1 h2; omega
  | succ f ih =>
    intro n h1 h2
    by_cases h : 2 ≤ n
    · have hrec := ih (n / 2) (by omega) (by omega)
      simp only [log2F, if_pos h]
      constructor
      · calc 2 ^ (log2F f (n / 2) + 1) = 2 * 2 ^ log2F f (n / 2) := by ring
        _ ≤ 2 * (n / 2) := by omega
        _ ≤ n := by omega
      · have := hrec.2
        calc n < 2 * (n / 2) + 2 := by omega
        _ ≤ 2 * 2 ^ (log2F f (n / 2) + 1) := by omega
        _ = 2 ^ (log2F f (n / 2) + 1 + 1) := by ring
    · simp only [log2F, if_neg h]
      omega

theorem log2N_spec (n : ℕ) (h : 1 ≤ n) :
    2 ^ log2N n ≤ n ∧ n < 2 ^ (log2N n + 1) := log2F_spec n n h le_rfl

theorem roundDy_err (x : Dy) : |(roundDy x : ℚ) - x.q| ≤ 1 / 2 := by
  unfold roundDy Dy.q
  by_cases hk : 0 ≤ x.k
  · simp only [if_pos hk]
    have : ((2 : ℚ)) ^ x.k = (2 : ℚ) ^ x.k.toNat := by
      rw [← zpow_natCast (2 : ℚ) x.k.toNat, Int.toNat_of_nonneg hk]
    rw [this]
    push_cast
    simp [abs_of_nonneg]
  · simp only [if_neg hk]
    set s := (-x.k).toNat with hs
    have hks : x.k = -(s : ℤ) := by omega
    have hpow : ((2 : ℚ)) ^ x.k = ((2 ^ s : ℕ) : ℚ)⁻¹ := by
      rw [hks, zpow_neg, zpow_natCast]
      push_cast
      ring
    have hspos : (0 : ℚ) < ((2 ^ s : ℕ) : ℚ) := by positivity
    have hdm : x.m = 2 ^ s * (x.m / 2 ^ s) + x.m % 2 ^ s := (Nat.div_add_mod _ _).symm
    have hrlt : x.m % 2 ^ s < 2 ^ s := Nat.mod_lt _ (by positivity)
    rw [hpow]
    set n0 := x.m / 2 ^ s with hn0
    set r := x.m % 2 ^ s with hr
    have hval : (x.m : ℚ) * ((2 ^ s : ℕ) : ℚ)⁻¹ = (n0 : ℚ) + (r : ℚ) / ((2 ^ s : ℕ) : ℚ) := by
      rw [hdm]
      push_cast
      field_simp
      ring
    rw [hval]
    by_cases hc1 : r * 2 < 2 ^ s
    · simp only [if_pos hc1]
      have h1 : (0 : ℚ) ≤ (r : ℚ) / ((2 ^ s : ℕ) : ℚ) := by positivity
      have h2 : (r : ℚ) / ((2 ^ s : ℕ) : ℚ) ≤ 1 / 2 := by
        rw [div_le_div_iff₀ hspos (by norm_num)]
        push_cast
        have : (r : ℚ) * 2 ≤ (2 ^ s : ℕ) := by exact_mod_cast Nat.le_of_lt hc1
        push_cast at this
        linarith
      rw [abs_sub_comm, abs_of_nonneg (by linarith)]
      linarith
    · have hge : 2 ^ s ≤ r * 2 := by omega
      have h2 : 1 / 2 ≤ (r : ℚ) / ((2 ^ s : ℕ) : ℚ) := by
        rw [div_le_div_iff₀ (by norm_num) hspos]
        have : ((2 ^ s : ℕ) : ℚ) ≤ (r : ℚ) * 2 := by exact_mod_cast hge
        linarith
      have h3 : (r : ℚ) / ((2 ^ s : ℕ) : ℚ) < 1 := by
        rw [div_lt_one hspos]
        exact_mod_cast hrlt
      have h2' := h2
      have h3' := h3
      push_cast at h2' h3'
      have habs : |(((n0 : ℕ) + 1 : ℕ) : ℚ) - ((n0 : ℚ) + (r : ℚ) / ((2 ^ s : ℕ) : ℚ))| ≤ 1 / 2 := by
        push_cast
        rw [abs_of_nonneg (by linarith [h3'])]
        linarith [h2']
      simp only [if_neg hc1]
      by_cases hc2 : 2 ^ s < r * 2
      · simp only [if_pos hc2]
        exact_mod_cast habs
      · simp only [if_neg hc2]
        by_cases hc3 : n0 % 2 = 0
        · simp only [if_pos hc3]
          have htie : r * 2 = 2 ^ s := by omega
          have h2s : (r : ℚ) * 2 = ((2 ^ s : ℕ) : ℚ) := by exact_mod_cast htie
          have hreq : (r : ℚ) / ((2 ^ s : ℕ) : ℚ) = 1 / 2 := by
            rw [div_eq_iff (ne_of_gt hspos), ← h2s]
            ring
          rw [hreq, abs_sub_comm, abs_of_nonneg (by linarith)]
          linarith
        · simp only [if_neg hc3]
          exact_mod_cast habs

theorem qpow_nat (L : ℕ) : (2 : ℚ) ^ (L : ℤ) = ((2 ^ L : ℕ) : ℚ) := by
  rw [zpow_natCast]
  push_cast
  ring

theorem eDy_spec (x : Dy) (h : 1 ≤ x.m) :
    (2 : ℚ) ^ eDy x ≤ x.q ∧ x.q < (2 : ℚ) ^ (eDy x + 1) := by
  obtain ⟨hlo, hhi⟩ := log2N_spec x.m h
  have hp : (0 : ℚ) < (2 : ℚ) ^ x.k := by positivity
  unfold eDy Dy.q
  constructor
  · rw [zpow_add₀ (two_ne_zero) , qpow_nat]
    exact mul_le_mul_of_nonneg_right (by exact_mod_cast hlo) (le_of_lt hp)
  · have hc : ((x.m : ℚ)) < ((2 ^ (log2N x.m + 1) : ℕ) : ℚ) := by exact_mod_cast hhi
    calc (x.m : ℚ) * 2 ^ x.k < ((2 ^ (log2N x.m + 1) : ℕ) : ℚ) * 2 ^ x.k :=
          mul_lt_mul_of_pos_right hc hp
    _ = (2 : ℚ) ^ (((log2N x.m + 1 : ℕ) : ℤ)) * 2 ^ x.k := by rw [qpow_nat]
    _ = (2 : ℚ) ^ (((log2N x.m + 1 : ℕ) : ℤ) + x.k) := (zpow_add₀ two_ne_zero _ _).symm
    _ = (2 : ℚ) ^ ((log2N x.m : ℤ) + x.k + 1) := by
          congr 1
          push_cast
          ring

theorem roundDy_le_of_le (x : Dy) (N : ℕ) (h : x.q ≤ N) : roundDy x ≤ N := by
  have herr := abs_le.mp (roundDy_err x)
  by_contra hc
  push_neg at hc
  have : ((N + 1 : ℕ) : ℚ) ≤ (roundDy x : ℚ) := by exact_mod_cast hc
  push_cast at this
  linarith [herr.2]

theorem roundDy_ge_of_ge (x : Dy) (N : ℕ) (h : (N : ℚ) + 1 / 2 < x.q) : N + 1 ≤ roundDy x := by
  have herr := abs_le.mp (roundDy_err x)
  by_contra hc
  push_neg at hc
  have : (roundDy x : ℚ) ≤ (N : ℚ) := by exact_mod_cast Nat.lt_succ_iff.mp hc
  linarith [herr.1]

theorem sv_abs (s : Bool) (x : Dy) : |sv s x| = x.q := by
  cases s <;> simp [sv, abs_of_nonneg (Dy.q_nonneg x), abs_of_nonpos, Dy.q_nonneg x]

theorem align_cast (x : Dy) (k : ℤ) (hk : k ≤ x.k) :
    (x.m : ℚ) * (2 : ℚ) ^ ((x.k - k).toNat) * (2 : ℚ) ^ k = x.q := by
  rw [← zpow_natCast (2 : ℚ) ((x.k - k).toNat), Int.toNat_of_nonneg (by omega)]
  unfold Dy.q
  rw [mul_assoc, ← zpow_add₀ (two_ne_zero : (2 : ℚ) ≠ 0)]
  have hkk : x.k - k + k = x.k := by ring
  rw [hkk]

theorem salign_cast (s : Bool) (x : Dy) (k : ℤ) (hk : k ≤ x.k) :
    (((if s then -(x.m : ℤ) else (x.m : ℤ)) * ((2 ^ (x.k - k).toNat : ℕ) : ℤ) : ℤ) : ℚ) * (2 : ℚ) ^ k
      = sv s x := by
  cases s
  · have := align_cast x k hk
    simp only [sv, if_false, Bool.false_eq_true]
    push_cast
    linarith
  · have := align_cast x k hk
    simp only [sv, if_true]
    push_cast
    linarith

theorem sleB_iff (s1 : Bool) (x : Dy) (s2 : Bool) (y : Dy) :
    sleB s1 x s2 y = true ↔ sv s1 x ≤ sv s2 y := by
  unfold sleB
  rw [decide_eq_true_eq]
  have hp : (0 : ℚ) < (2 : ℚ) ^ (min x.k y.k) := by positivity
  constructor
  · intro hab
    rw [← salign_cast s1 x (min x.k y.k) (min_le_left _ _),
        ← salign_cast s2 y (min x.k y.k) (min_le_right _ _)]
    exact mul_le_mul_of_nonneg_right (by exact_mod_cast hab) (le_of_lt hp)
  · intro hq
    rw [← salign_cast s1 x (min x.k y.k) (min_le_left _ _),
        ← salign_cast s2 y (min x.k y.k) (min_le_right _ _)] at hq
    exact_mod_cast le_of_mul_le_mul_right hq hp

theorem decode32_subnormal (s : Bool) (M : ℕ) (hM : M < 2 ^ 23) :
    decodeF 8 24 ((if s then 2 ^ 31 else 0) + M) = FClass.fin s ⟨M, -149⟩ := by
  cases s
  · simp only [Bool.false_eq_true, if_false, decodeF]
    have h1 : (0 + M) / 2 ^ (24 - 1) % 2 ^ 8 = 0 := by omega
    have h2 : (0 + M) % 2 ^ (24 - 1) = M := by omega
    have h3 : (0 + M) / 2 ^ (8 + 24 - 1) % 2 = 0 := by omega
    rw [h1, h2, h3]
    norm_num
  · simp only [if_true, decodeF]
    have h1 : (2 ^ 31 + M) / 2 ^ (24 - 1) % 2 ^ 8 = 0 := by omega
    have h2 : (2 ^ 31 + M) % 2 ^ (24 - 1) = M := by omega
    have h3 : (2 ^ 31 + M) / 2 ^ (8 + 24 - 1) % 2 = 1 := by omega
    rw [h1, h2, h3]
    norm_num

theorem decode32_normal (s : Bool) (En M : ℕ) (h1 : 1 ≤ En) (h2 : En ≤ 254)
    (hM : M < 2 ^ 23) :
    decodeF 8 24 ((if s then 2 ^ 31 else 0) + En * 2 ^ 23 + M)
      = FClass.fin s ⟨2 ^ 23 + M, (En : ℤ) - 150⟩ := by
  cases s
  · simp only [Bool.false_eq_true, if_false, decodeF]
    have hE : (0 + En * 2 ^ 23 + M) / 2 ^ (24 - 1) % 2 ^ 8 = En := by omega
    have hMf : (0 + En * 2 ^ 23 + M) % 2 ^ (24 - 1) = M := by omega
    have hs : (0 + En * 2 ^ 23 + M) / 2 ^ (8 + 24 - 1) % 2 = 0 := by omega
    rw [hE, hMf, hs]
    have hne : En ≠ 2 ^ 8 - 1 := by omega
    have hne0 : En ≠ 0 := by omega
    rw [if_neg hne, if_neg hne0]
    norm_num
    omega
  · simp only [if_true, decodeF]
    have hE : (2 ^ 31 + En * 2 ^ 23 + M) / 2 ^ (24 - 1) % 2 ^ 8 = En := by omega
    have hMf : (2 ^ 31 + En * 2 ^ 23 + M) % 2 ^ (24 - 1) = M := by omega
    have hs : (2 ^ 31 + En * 2 ^ 23 + M) / 2 ^ (8 + 24 - 1) % 2 = 1 := by omega
    rw [hE, hMf, hs]
    have hne : En ≠ 2 ^ 8 - 1 := by omega
    have hne0 : En ≠ 0 := by omega
    rw [if_neg hne, if_neg hne0]
    norm_num
    omega

theorem err_scale_le (n q c : ℚ) (z : ℤ) (h : |n - q * (2 : ℚ) ^ (-z)| ≤ c) :
    |n * (2 : ℚ) ^ z - q| ≤ c * (2 : ℚ) ^ z := by
  have h1 : (2 : ℚ) ^ (-z) * (2 : ℚ) ^ z = 1 := by
    rw [← zpow_add₀ (two_ne_zero : (2 : ℚ) ≠ 0)]
    norm_num
  have hzpos : (0 : ℚ) < (2 : ℚ) ^ z := by positivity
  have key : n * (2 : ℚ) ^ z - q = (n - q * (2 : ℚ) ^ (-z)) * (2 : ℚ) ^ z := by
    linear_combination q * h1
  rw [key, abs_mul, abs_of_pos hzpos]
  exact mul_le_mul_of_nonneg_right h (le_of_lt hzpos)

theorem zpow_half_shift (z : ℤ) : (1 / 2 : ℚ) * (2 : ℚ) ^ z = (2 : ℚ) ^ (z - 1) := by
  rw [show z - 1 = -1 + z by ring, zpow_add₀ (two_ne_zero : (2 : ℚ) ≠ 0)]
  norm_num

theorem encodePat32_shape (s : Bool) (mag : Dy) (hm : mag.m ≠ 0) :
    encodePat 8 24 s mag =
      (if ((log2N mag.m : ℤ) + mag.k < -126) then
         (if s then 2 ^ 31 else 0) + roundDy (dyShift mag 149)
       else if (127 < (log2N mag.m : ℤ) + mag.k) then
         (if s then 2 ^ 31 else 0) + 255 * 2 ^ 23
       else
         (if s then 2 ^ 31 else 0)
           + (((log2N mag.m : ℤ) + mag.k + 127).toNat - 1) * 2 ^ 23
           + roundDy (dyShift mag (23 - ((log2N mag.m : ℤ) + mag.k)))) := by
  unfold encodePat
  rw [if_neg hm]
  norm_num

theorem encode_bound32 (s : Bool) (mag : Dy) (hle : mag.q ≤ (2 : ℚ) ^ (127 : ℤ)) :
    ∃ v : Dy, decodeF 8 24 (encodePat 8 24 s mag) = FClass.fin s v ∧
      |v.q - mag.q| ≤ mag.q * (2 : ℚ) ^ (-24 : ℤ) + (2 : ℚ) ^ (-150 : ℤ) := by
  by_cases hm : mag.m = 0
  · have hq0 : mag.q = 0 := by
      unfold Dy.q
      rw [hm]
      norm_num
    refine ⟨⟨0, -149⟩, ?_, ?_⟩
    · have hzero : encodePat 8 24 s mag = (if s then 2 ^ 31 else 0) + 0 := by
        unfold encodePat
        rw [if_pos hm]
        cases s <;> norm_num
      rw [hzero, decode32_subnormal s 0 (by norm_num)]
    · have hv : (Dy.q ⟨0, -149⟩) = 0 := by
        unfold Dy.q
        norm_num
      rw [hv, hq0]
      simp
      positivity
  · have hm1 : 1 ≤ mag.m := Nat.one_le_iff_ne_zero.mpr hm
    obtain ⟨helo, hehi⟩ := eDy_spec mag hm1
    rw [show eDy mag = (log2N mag.m : ℤ) + mag.k from rfl] at helo hehi
    set e : ℤ := (log2N mag.m : ℤ) + mag.k with he
    have hqpos : 0 < mag.q := lt_of_lt_of_le (by positivity) helo
    have hele : e ≤ 127 :=
      (zpow_le_zpow_iff_right₀ (by norm_num : (1 : ℚ) < 2)).mp (le_trans helo hle)
    rw [encodePat32_shape s mag hm, ← he]
    by_cases hsub : e < -126
    · rw [if_pos hsub]
      have hxval : (dyShift mag 149).q = mag.q * (2 : ℚ) ^ (149 : ℤ) := dyShift_q mag 149
      have hxlt : (dyShift mag 149).q < (2 : ℚ) ^ (23 : ℤ) := by
        rw [hxval]
        calc mag.q * (2 : ℚ) ^ (149 : ℤ) < (2 : ℚ) ^ (e + 1) * (2 : ℚ) ^ (149 : ℤ) :=
              mul_lt_mul_of_pos_right hehi (by positivity)
        _ = (2 : ℚ) ^ (e + 1 + 149) := (zpow_add₀ (two_ne_zero : (2 : ℚ) ≠ 0) _ _).symm
        _ ≤ (2 : ℚ) ^ (23 : ℤ) :=
              zpow_le_zpow_right₀ (by norm_num : (1 : ℚ) ≤ 2) (by omega)
      set n := roundDy (dyShift mag 149) with hn
      have hnle : n ≤ 2 ^ 23 := by
        apply roundDy_le_of_le
        rw [← qpow_nat]
        exact le_of_lt hxlt
      have herr := roundDy_err (dyShift mag 149)
      rw [hxval, ← hn] at herr
      have hbound : |(n : ℚ) * (2 : ℚ) ^ (-149 : ℤ) - mag.q| ≤ (1 / 2) * (2 : ℚ) ^ (-149 : ℤ) := by
        apply err_scale_le
        rw [show -(-149 : ℤ) = 149 by norm_num]
        exact herr
      have hfin : (1 / 2 : ℚ) * (2 : ℚ) ^ (-149 : ℤ) = (2 : ℚ) ^ (-150 : ℤ) := by
        rw [zpow_half_shift]
        norm_num
      rw [hfin] at hbound
      have htail : |(n : ℚ) * (2 : ℚ) ^ (-149 : ℤ) - mag.q|
          ≤ mag.q * (2 : ℚ) ^ (-24 : ℤ) + (2 : ℚ) ^ (-150 : ℤ) := by
        have hpos : 0 ≤ mag.q * (2 : ℚ) ^ (-24 : ℤ) := by positivity
        linarith
      rcases Nat.lt_or_ge n (2 ^ 23) with hlt | hge
      · refine ⟨⟨n, -149⟩, ?_, ?_⟩
        · exact decode32_subnormal s n hlt
        · have hvq : (Dy.q ⟨n, -149⟩) = (n : ℚ) * (2 : ℚ) ^ (-149 : ℤ) := rfl
          rw [hvq]
          exact htail
      · have hn23 : n = 2 ^ 23 := by omega
        refine ⟨⟨2 ^ 23 + 0, (1 : ℤ) - 150⟩, ?_, ?_⟩
        · have hpe : (if s then 2 ^ 31 else 0) + n
              = (if s then 2 ^ 31 else 0) + 1 * 2 ^ 23 + 0 := by omega
          rw [hpe]
          exact_mod_cast decode32_normal s 1 0 (by norm_num) (by norm_num) (by norm_num)
        · have hvq : (Dy.q ⟨2 ^ 23 + 0, (1 : ℤ) - 150⟩) = (n : ℚ) * (2 : ℚ) ^ (-149 : ℤ) := by
            unfold Dy.q
            rw [hn23]
            norm_num
          rw [hvq]
          exact htail
    · rw [if_neg hsub, if_neg (by omega : ¬ (127 < e))]
      have hxval : (dyShift mag (23 - e)).q = mag.q * (2 : ℚ) ^ (23 - e) := dyShift_q mag _
      have hxlo : (2 : ℚ) ^ (23 : ℤ) ≤ (dyShift mag (23 - e)).q := by
        rw [hxval]
        calc (2 : ℚ) ^ (23 : ℤ) = (2 : ℚ) ^ e * (2 : ℚ) ^ (23 - e) := by
              rw [← zpow_add₀ (two_ne_zero : (2 : ℚ) ≠ 0)]
              congr 1
              ring
        _ ≤ mag.q * (2 : ℚ) ^ (23 - e) :=
              mul_le_mul_of_nonneg_right helo (by positivity)
      have hxhi : (dyShift mag (23 - e)).q < (2 : ℚ) ^ (24 : ℤ) := by
        rw [hxval]
        calc mag.q * (2 : ℚ) ^ (23 - e) < (2 : ℚ) ^ (e + 1) * (2 : ℚ) ^ (23 - e) :=
              mul_lt_mul_of_pos_right hehi (by positivity)
        _ = (2 : ℚ) ^ (24 : ℤ) := by
              rw [← zpow_add₀ (two_ne_zero : (2 : ℚ) ≠ 0)]
              congr 1
              ring
      set m' := roundDy (dyShift mag (23 - e)) with hm'
      have herr := roundDy_err (dyShift mag (23 - e))
      rw [hxval, ← hm'] at herr
      have hml : 2 ^ 23 ≤ m' := by
        have hgt : (((2 : ℕ) ^ 23 - 1 : ℕ) : ℚ) + 1 / 2 < (dyShift mag (23 - e)).q := by
          have hlit : (((2 : ℕ) ^ 23 - 1 : ℕ) : ℚ) + 1 / 2 < (2 : ℚ) ^ (23 : ℤ) := by
            push_cast
            norm_num
          linarith [hxlo]
        have := roundDy_ge_of_ge (dyShift mag (23 - e)) (2 ^ 23 - 1) hgt
        omega
      have hmh : m' ≤ 2 ^ 24 := by
        apply roundDy_le_of_le
        rw [← qpow_nat]
        exact le_of_lt hxhi
      have hnotinf : ¬ (m' = 2 ^ 24 ∧ e = 127) := by
        rintro ⟨hm24, he127⟩
        have h1 : ((m' : ℚ)) - (1 / 2) ≤ mag.q * (2 : ℚ) ^ (23 - e) := by
          have := (abs_le.mp herr).2
          linarith
        have h2 : ((2 : ℚ) ^ (24 : ℤ) - 1 / 2) * (2 : ℚ) ^ (104 : ℤ) ≤ mag.q := by
          have hmc : ((m' : ℚ)) = (2 : ℚ) ^ (24 : ℤ) := by
            rw [hm24]
            exact_mod_cast (qpow_nat 24).symm
          rw [he127] at h1
          have hstep : ((2 : ℚ) ^ (24 : ℤ) - 1 / 2) ≤ mag.q * (2 : ℚ) ^ (-104 : ℤ) := by
            rw [hmc] at h1
            calc ((2 : ℚ) ^ (24 : ℤ) - 1 / 2) ≤ mag.q * (2 : ℚ) ^ ((23 : ℤ) - 127) := h1
            _ = mag.q * (2 : ℚ) ^ (-104 : ℤ) := by norm_num
          calc ((2 : ℚ) ^ (24 : ℤ) - 1 / 2) * (2 : ℚ) ^ (104 : ℤ)
              ≤ (mag.q * (2 : ℚ) ^ (-104 : ℤ)) * (2 : ℚ) ^ (104 : ℤ) :=
                mul_le_mul_of_nonneg_right hstep (by positivity)
          _ = mag.q := by
                rw [mul_assoc, ← zpow_add₀ (two_ne_zero : (2 : ℚ) ≠ 0)]
                norm_num
        have h3 : ((2 : ℚ) ^ (24 : ℤ) - 1 / 2) * (2 : ℚ) ^ (104 : ℤ)
            = (2 : ℚ) ^ (128 : ℤ) - (2 : ℚ) ^ (103 : ℤ) := by
          rw [sub_mul, ← zpow_add₀ (two_ne_zero : (2 : ℚ) ≠ 0), zpow_half_shift]
          norm_num
        have h4 : (2 : ℚ) ^ (127 : ℤ) < (2 : ℚ) ^ (128 : ℤ) - (2 : ℚ) ^ (103 : ℤ) := by
          have ha : (2 : ℚ) ^ (128 : ℤ) = 2 * (2 : ℚ) ^ (127 : ℤ) := by
            rw [show (128 : ℤ) = 1 + 127 by norm_num, zpow_add₀ (two_ne_zero : (2 : ℚ) ≠ 0)]
            norm_num
          have hb : (2 : ℚ) ^ (103 : ℤ) < (2 : ℚ) ^ (127 : ℤ) :=
            zpow_lt_zpow_right₀ (by norm_num : (1 : ℚ) < 2) (by norm_num)
          linarith
        rw [h3] at h2
        linarith [le_trans h2 hle]
      have hEn1 : (1 : ℤ) ≤ e + 127 := by omega
      have hEnnn : ((e + 127).toNat : ℤ) = e + 127 := Int.toNat_of_nonneg (by omega)
      have hEn1' : 1 ≤ (e + 127).toNat := by omega
      have hEn254 : (e + 127).toNat ≤ 254 := by omega
      have hvqgoal : ∀ v : Dy, v.q = (m' : ℚ) * (2 : ℚ) ^ (e - 23) →
          |v.q - mag.q| ≤ mag.q * (2 : ℚ) ^ (-24 : ℤ) + (2 : ℚ) ^ (-150 : ℤ) := by
        intro v hv
        rw [hv]
        have hb1 : |(m' : ℚ) * (2 : ℚ) ^ (e - 23) - mag.q| ≤ (1 / 2) * (2 : ℚ) ^ (e - 23) := by
          apply err_scale_le
          rw [show -(e - 23) = 23 - e by ring]
          exact herr
        have hb2 : (1 / 2 : ℚ) * (2 : ℚ) ^ (e - 23) = (2 : ℚ) ^ (e - 24) := by
          rw [zpow_half_shift]
          congr 1
          ring
        have hb3 : (2 : ℚ) ^ (e - 24) ≤ mag.q * (2 : ℚ) ^ (-24 : ℤ) := by
          calc (2 : ℚ) ^ (e - 24) = (2 : ℚ) ^ e * (2 : ℚ) ^ (-24 : ℤ) := by
                rw [sub_eq_add_neg, zpow_add₀ (two_ne_zero : (2 : ℚ) ≠ 0)]
          _ ≤ mag.q * (2 : ℚ) ^ (-24 : ℤ) :=
                mul_le_mul_of_nonneg_right helo (by positivity)
        have hb4 : (0 : ℚ) < (2 : ℚ) ^ (-150 : ℤ) := by positivity
        linarith
      rcases Nat.lt_or_ge m' (2 ^ 24) with hlt | hge24
      · refine ⟨⟨2 ^ 23 + (m' - 2 ^ 23), ((e + 127).toNat : ℤ) - 150⟩, ?_, ?_⟩
        · have hpe : (if s then 2 ^ 31 else 0) + ((e + 127).toNat - 1) * 2 ^ 23 + m'
              = (if s then 2 ^ 31 else 0) + (e + 127).toNat * 2 ^ 23 + (m' - 2 ^ 23) := by
            omega
          rw [hpe]
          exact decode32_normal s ((e + 127).toNat) (m' - 2 ^ 23) hEn1' hEn254 (by omega)
        · apply hvqgoal
          unfold Dy.q
          rw [hEnnn]
          have hmm : ((2 : ℕ) ^ 23 + (m' - 2 ^ 23) : ℕ) = m' := by omega
          rw [hmm, show (e + 127 - 150 : ℤ) = e - 23 from by ring]
      · have hm24 : m' = 2 ^ 24 := by omega
        have hene : e ≤ 126 := by
          by_contra hc
          exact hnotinf ⟨hm24, by omega⟩
        refine ⟨⟨2 ^ 23 + 0, (((e + 127).toNat + 1 : ℕ) : ℤ) - 150⟩, ?_, ?_⟩
        · have hpe : (if s then 2 ^ 31 else 0) + ((e + 127).toNat - 1) * 2 ^ 23 + m'
              = (if s then 2 ^ 31 else 0) + ((e + 127).toNat + 1) * 2 ^ 23 + 0 := by
            omega
          rw [hpe]
          exact decode32_normal s ((e + 127).toNat + 1) 0 (by omega) (by omega) (by norm_num)
        · apply hvqgoal
          unfold Dy.q
          have hc1 : (((e + 127).toNat + 1 : ℕ) : ℤ) - 150 = e - 22 := by omega
          rw [hc1, hm24]
          have hc2 : ((2 : ℕ) ^ 23 + 0 : ℕ) = 2 ^ 23 := by norm_num
          rw [hc2]
          have hc3 : (((2 : ℕ) ^ 24 : ℕ) : ℚ) = (2 : ℚ) ^ (24 : ℤ) := (qpow_nat 24).symm
          have hc4 : (((2 : ℕ) ^ 23 : ℕ) : ℚ) = (2 : ℚ) ^ (23 : ℤ) := (qpow_nat 23).symm
          rw [hc3, hc4, ← zpow_add₀ (two_ne_zero : (2 : ℚ) ≠ 0), ← zpow_add₀ (two_ne_zero : (2 : ℚ) ≠ 0),
            show (23 : ℤ) + (e - 22) = 24 + (e - 23) from by ring]

theorem sv_mul_sign (sa sb : Bool) (x y : Dy) :
    sv sa x * sv sb y = (if xor sa sb then -(x.q * y.q) else x.q * y.q) := by
  cases sa <;> cases sb <;> simp [sv]

theorem fmul_sound32 (a b : ℕ) (sa sb : Bool) (xa xb : Dy)
    (ha : decodeF 8 24 a = FClass.fin sa xa) (hb : decodeF 8 24 b = FClass.fin sb xb)
    (hbnd : xa.q * xb.q ≤ (2 : ℚ) ^ (127 : ℤ)) :
    ∃ s v, decodeF 8 24 (fmulP 8 24 a b) = FClass.fin s v ∧
      |sv s v - sv sa xa * sv sb xb|
        ≤ xa.q * xb.q * (2 : ℚ) ^ (-24 : ℤ) + (2 : ℚ) ^ (-150 : ℤ) := by
  have hred : fmulP 8 24 a b = encodePat 8 24 (xor sa sb) (dyMul xa xb) := by
    simp only [fmulP, ha, hb]
  obtain ⟨v, hdec, hvb⟩ := encode_bound32 (xor sa sb) (dyMul xa xb)
    (by rw [dyMul_q]; exact hbnd)
  rw [dyMul_q] at hvb
  refine ⟨xor sa sb, v, by rw [hred]; exact hdec, ?_⟩
  rw [sv_mul_sign]
  cases hxs : xor sa sb
  · simpa [sv] using hvb
  · simp only [sv, if_true]
    have : |-v.q - -(xa.q * xb.q)| = |v.q - xa.q * xb.q| := by
      rw [show -v.q - -(xa.q * xb.q) = -(v.q - xa.q * xb.q) by ring, abs_neg]
    rw [this]
    exact hvb

theorem encode_zero_near (σ : Bool) (D : ℚ) (hD0 : D = 0) :
    ∃ s v, decodeF 8 24 (encodePat 8 24 σ ⟨0, 0⟩) = FClass.fin s v ∧
      |sv s v - D| ≤ |D| * (2 : ℚ) ^ (-24 : ℤ) + (2 : ℚ) ^ (-150 : ℤ) := by
  obtain ⟨v, hdec, hvb⟩ := encode_bound32 σ ⟨0, 0⟩ (by
    unfold Dy.q
    norm_num)
  have hm0 : (Dy.q ⟨0, 0⟩) = 0 := by
    unfold Dy.q
    norm_num
  rw [hm0] at hvb
  refine ⟨σ, v, hdec, ?_⟩
  have habs : |sv σ v - D| = |v.q - 0| := by
    rw [hD0]
    cases σ <;> simp [sv]
  rw [habs, hD0]
  calc |v.q - 0| ≤ 0 * (2 : ℚ) ^ (-24 : ℤ) + (2 : ℚ) ^ (-150 : ℤ) := hvb
  _ = |(0 : ℚ)| * (2 : ℚ) ^ (-24 : ℤ) + (2 : ℚ) ^ (-150 : ℤ) := by norm_num

theorem encode_signed_near (d : ℤ) (k : ℤ) (D : ℚ) (hd0 : d ≠ 0)
    (hDq : ((d : ℤ) : ℚ) * (2 : ℚ) ^ k = D) (hbnd : |D| ≤ (2 : ℚ) ^ (127 : ℤ)) :
    ∃ s v, decodeF 8 24 (encodePat 8 24 (decide (d < 0)) ⟨d.natAbs, k⟩) = FClass.fin s v ∧
      |sv s v - D| ≤ |D| * (2 : ℚ) ^ (-24 : ℤ) + (2 : ℚ) ^ (-150 : ℤ) := by
  have hmagq : (Dy.q ⟨d.natAbs, k⟩) = |D| := by
    unfold Dy.q
    rw [← hDq, abs_mul, abs_of_pos (show (0 : ℚ) < (2 : ℚ) ^ k from by positivity)]
    congr 1
    simp [Int.cast_natAbs]
  obtain ⟨v, hdec, hvb⟩ := encode_bound32 (decide (d < 0)) ⟨d.natAbs, k⟩
    (by rw [hmagq]; exact hbnd)
  rw [hmagq] at hvb
  refine ⟨decide (d < 0), v, hdec, ?_⟩
  have hkpos : (0 : ℚ) < (2 : ℚ) ^ k := by positivity
  rcases lt_trichotomy d 0 with hneg | hzz | hpos
  · have hsd : decide (d < 0) = true := by
      simp only [decide_eq_true_eq]
      exact hneg
    have hDneg : D < 0 := by
      rw [← hDq]
      have hdc : ((d : ℤ) : ℚ) < 0 := by exact_mod_cast hneg
      exact mul_neg_of_neg_of_pos hdc hkpos
    have hDabs : |D| = -D := abs_of_neg hDneg
    rw [hsd]
    have heq : sv true v - D = -(v.q - |D|) := by
      rw [hDabs]
      show -v.q - D = -(v.q - -D)
      ring
    rw [heq, abs_neg]
    exact hvb
  · exact absurd hzz hd0
  · have hsd : decide (d < 0) = false := by
      simp only [decide_eq_false_iff_not]
      omega
    have hDpos : 0 < D := by
      rw [← hDq]
      have hdc : (0 : ℚ) < ((d : ℤ) : ℚ) := by exact_mod_cast hpos
      exact mul_pos hdc hkpos
    have hDabs : |D| = D := abs_of_pos hDpos
    rw [hsd]
    have heq : sv false v - D = v.q - |D| := by
      rw [hDabs]
      rfl
    rw [heq]
    exact hvb

theorem fsub_sound32 (a b : ℕ) (sa sb : Bool) (xa xb : Dy)
    (ha : decodeF 8 24 a = FClass.fin sa xa) (hb : decodeF 8 24 b = FClass.fin sb xb)
    (hbnd : |sv sa xa - sv sb xb| ≤ (2 : ℚ) ^ (127 : ℤ)) :
    ∃ s v, decodeF 8 24 (fsubP 8 24 a b) = FClass.fin s v ∧
      |sv s v - (sv sa xa - sv sb xb)|
        ≤ |sv sa xa - sv sb xb| * (2 : ℚ) ^ (-24 : ℤ) + (2 : ℚ) ^ (-150 : ℤ) := by
  simp only [fsubP, ha, hb]
  set k : ℤ := min xa.k xb.k with hk
  set A : ℤ := (if sa then -(xa.m : ℤ) else (xa.m : ℤ)) * ((2 ^ (xa.k - k).toNat : ℕ) : ℤ) with hA
  set B : ℤ := (if sb then -(xb.m : ℤ) else (xb.m : ℤ)) * ((2 ^ (xb.k - k).toNat : ℕ) : ℤ) with hB
  have hAq : ((A : ℤ) : ℚ) * (2 : ℚ) ^ k = sv sa xa := salign_cast sa xa k (min_le_left _ _)
  have hBq : ((B : ℤ) : ℚ) * (2 : ℚ) ^ k = sv sb xb := salign_cast sb xb k (min_le_right _ _)
  have hDq : (((A - B : ℤ)) : ℚ) * (2 : ℚ) ^ k = sv sa xa - sv sb xb := by
    push_cast
    push_cast at hAq hBq
    linarith [hAq, hBq]
  by_cases hd0 : A - B = 0
  · rw [if_pos hd0]
    have hD0 : sv sa xa - sv sb xb = 0 := by
      rw [← hDq, hd0]
      norm_num
    by_cases hzc : sa = true ∧ xa.m = 0 ∧ sb = false ∧ xb.m = 0
    · rw [if_pos hzc]
      exact encode_zero_near true _ hD0
    · rw [if_neg hzc]
      exact encode_zero_near false _ hD0
  · rw [if_neg hd0]
    exact encode_signed_near (A - B) k _ hd0 hDq hbnd

theorem finMagD_val (pat : ℕ) (h : pat ≤ 0x7f7fffff) :
    decodeF 8 24 pat = FClass.fin false (finMagD pat) ∧
      finMagD pat = (if pat / 2 ^ 23 = 0 then (⟨pat % 2 ^ 23, -149⟩ : Dy)
                     else ⟨2 ^ 23 + pat % 2 ^ 23, ((pat / 2 ^ 23 : ℕ) : ℤ) - 150⟩) := by
  rcases Nat.eq_zero_or_pos (pat / 2 ^ 23) with h0 | hpos
  · have hdec := decode32_subnormal false (pat % 2 ^ 23) (by omega)
    have hp : (if false then 2 ^ 31 else 0) + pat % 2 ^ 23 = pat := by
      norm_num
      omega
    rw [hp] at hdec
    have hfm : finMagD pat = ⟨pat % 2 ^ 23, -149⟩ := by
      unfold finMagD
      rw [hdec]
    rw [if_pos h0]
    exact ⟨by rw [hdec, hfm], hfm⟩
  · have hEn : pat / 2 ^ 23 ≤ 254 := by omega
    have hdec := decode32_normal false (pat / 2 ^ 23) (pat % 2 ^ 23) hpos hEn (by omega)
    have hp : (if false then 2 ^ 31 else 0) + pat / 2 ^ 23 * 2 ^ 23 + pat % 2 ^ 23 = pat := by
      norm_num
      omega
    rw [hp] at hdec
    have hfm : finMagD pat = ⟨2 ^ 23 + pat % 2 ^ 23, ((pat / 2 ^ 23 : ℕ) : ℤ) - 150⟩ := by
      unfold finMagD
      rw [hdec]
    rw [if_neg (by omega)]
    exact ⟨by rw [hdec, hfm], hfm⟩

theorem decode32_pos_fin (pat : ℕ) (h : pat ≤ 0x7f7fffff) :
    decodeF 8 24 pat = FClass.fin false (finMagD pat) := (finMagD_val pat h).1

theorem subnormal_lt (M : ℕ) (hM : M < 2 ^ 23) :
    (Dy.q ⟨M, -149⟩) < (2 : ℚ) ^ (-126 : ℤ) := by
  unfold Dy.q
  have hc : ((M : ℚ)) < (2 : ℚ) ^ (23 : ℤ) := by
    have h1 : ((M : ℚ)) < ((2 ^ 23 : ℕ) : ℚ) := by exact_mod_cast hM
    have h2 : ((2 ^ 23 : ℕ) : ℚ) = (2 : ℚ) ^ (23 : ℤ) := by exact_mod_cast (qpow_nat 23).symm
    linarith
  calc (M : ℚ) * (2 : ℚ) ^ (-149 : ℤ) < (2 : ℚ) ^ (23 : ℤ) * (2 : ℚ) ^ (-149 : ℤ) :=
        mul_lt_mul_of_pos_right hc (by positivity)
  _ = (2 : ℚ) ^ (-126 : ℤ) := by
        rw [← zpow_add₀ (two_ne_zero : (2 : ℚ) ≠ 0)]
        norm_num

theorem normal_ge (E : ℕ) (M : ℕ) :
    (2 : ℚ) ^ ((E : ℤ) - 127) ≤ Dy.q ⟨2 ^ 23 + M, (E : ℤ) - 150⟩ := by
  unfold Dy.q
  have hc : (2 : ℚ) ^ (23 : ℤ) ≤ ((2 ^ 23 + M : ℕ) : ℚ) := by
    have h1 : ((2 ^ 23 : ℕ) : ℚ) ≤ ((2 ^ 23 + M : ℕ) : ℚ) := by
      exact_mod_cast Nat.le_add_right (2 ^ 23) M
    have h2 : ((2 ^ 23 : ℕ) : ℚ) = (2 : ℚ) ^ (23 : ℤ) := by exact_mod_cast (qpow_nat 23).symm
    linarith
  calc (2 : ℚ) ^ ((E : ℤ) - 127) = (2 : ℚ) ^ (23 : ℤ) * (2 : ℚ) ^ ((E : ℤ) - 150) := by
        rw [← zpow_add₀ (two_ne_zero : (2 : ℚ) ≠ 0), show (23 : ℤ) + ((E : ℤ) - 150) = (E : ℤ) - 127 from by ring]
  _ ≤ ((2 ^ 23 + M : ℕ) : ℚ) * (2 : ℚ) ^ ((E : ℤ) - 150) :=
        mul_le_mul_of_nonneg_right hc (by positivity)

theorem normal_lt (E : ℕ) (M : ℕ) (hM : M < 2 ^ 23) :
    Dy.q ⟨2 ^ 23 + M, (E : ℤ) - 150⟩ < (2 : ℚ) ^ ((E : ℤ) - 126) := by
  unfold Dy.q
  have hc : ((2 ^ 23 + M : ℕ) : ℚ) < (2 : ℚ) ^ (24 : ℤ) := by
    have h1 : ((2 ^ 23 + M : ℕ) : ℚ) < ((2 ^ 24 : ℕ) : ℚ) := by
      exact_mod_cast (by omega : 2 ^ 23 + M < 2 ^ 24)
    have h2 : ((2 ^ 24 : ℕ) : ℚ) = (2 : ℚ) ^ (24 : ℤ) := by exact_mod_cast (qpow_nat 24).symm
    linarith
  calc ((2 ^ 23 + M : ℕ) : ℚ) * (2 : ℚ) ^ ((E : ℤ) - 150)
      < (2 : ℚ) ^ (24 : ℤ) * (2 : ℚ) ^ ((E : ℤ) - 150) :=
        mul_lt_mul_of_pos_right hc (by positivity)
  _ = (2 : ℚ) ^ ((E : ℤ) - 126) := by
        rw [← zpow_add₀ (two_ne_zero : (2 : ℚ) ≠ 0), show (24 : ℤ) + ((E : ℤ) - 150) = (E : ℤ) - 126 from by ring]

theorem finMag_mono (a b : ℕ) (hab : a ≤ b) (hb : b ≤ 0x7f7fffff) :
    (finMagD a).q ≤ (finMagD b).q := by
  have ha' : a ≤ 0x7f7fffff := le_trans hab hb
  obtain ⟨-, hfa⟩ := finMagD_val a ha'
  obtain ⟨-, hfb⟩ := finMagD_val b hb
  rcases Nat.eq_zero_or_pos (a / 2 ^ 23) with ha0 | hapos
  · rw [hfa, if_pos ha0]
    rcases Nat.eq_zero_or_pos (b / 2 ^ 23) with hb0 | hbpos
    · rw [hfb, if_pos hb0]
      unfold Dy.q
      have : ((a % 2 ^ 23 : ℕ) : ℚ) ≤ ((b % 2 ^ 23 : ℕ) : ℚ) := by exact_mod_cast (by omega : a % 2 ^ 23 ≤ b % 2 ^ 23)
      exact mul_le_mul_of_nonneg_right this (by positivity)
    · rw [hfb, if_neg (by omega)]
      have h1 := subnormal_lt (a % 2 ^ 23) (by omega)
      have h2 := normal_ge (b / 2 ^ 23) (b % 2 ^ 23)
      have h3 : (2 : ℚ) ^ (-126 : ℤ) ≤ (2 : ℚ) ^ (((b / 2 ^ 23 : ℕ) : ℤ) - 127) := by
        apply zpow_le_zpow_right₀ (by norm_num : (1 : ℚ) ≤ 2)
        omega
      exact le_of_lt (lt_of_lt_of_le h1 (le_trans h3 h2))
  · rcases Nat.eq_zero_or_pos (b / 2 ^ 23) with hb0 | hbpos
    · exfalso
      omega
    · rw [hfa, if_neg (by omega), hfb, if_neg (by omega)]
      rcases Nat.lt_or_ge (a / 2 ^ 23) (b / 2 ^ 23) with hElt | hEge
      · have h1 := normal_lt (a / 2 ^ 23) (a % 2 ^ 23) (by omega)
        have h2 := normal_ge (b / 2 ^ 23) (b % 2 ^ 23)
        have h3 : (2 : ℚ) ^ (((a / 2 ^ 23 : ℕ) : ℤ) - 126) ≤ (2 : ℚ) ^ (((b / 2 ^ 23 : ℕ) : ℤ) - 127) := by
          apply zpow_le_zpow_right₀ (by norm_num : (1 : ℚ) ≤ 2)
          omega
        linarith
      · have hEeq : a / 2 ^ 23 = b / 2 ^ 23 := by omega
        rw [hEeq]
        unfold Dy.q
        have hMle : a % 2 ^ 23 ≤ b % 2 ^ 23 := by omega
        have : ((2 ^ 23 + a % 2 ^ 23 : ℕ) : ℚ) ≤ ((2 ^ 23 + b % 2 ^ 23 : ℕ) : ℚ) := by
          exact_mod_cast (by omega : 2 ^ 23 + a % 2 ^ 23 ≤ 2 ^ 23 + b % 2 ^ 23)
        exact mul_le_mul_of_nonneg_right this (by positivity)

theorem zalign_cast (x : Zdy) (k : ℤ) (hk : k ≤ x.k) :
    ((x.m * ((2 ^ (x.k - k).toNat : ℕ) : ℤ) : ℤ) : ℚ) * (2 : ℚ) ^ k = x.q := by
  push_cast
  rw [mul_assoc, ← zpow_natCast (2 : ℚ) ((x.k - k).toNat), Int.toNat_of_nonneg (by omega),
    ← zpow_add₀ (two_ne_zero : (2 : ℚ) ≠ 0)]
  unfold Zdy.q
  rw [show x.k - k + k = x.k from by ring]

theorem zMul_q (x y : Zdy) : (zMul x y).q = x.q * y.q := by
  unfold zMul Zdy.q
  push_cast
  rw [zpow_add₀ (two_ne_zero : (2 : ℚ) ≠ 0)]
  ring

theorem zAdd_q (x y : Zdy) : (zAdd x y).q = x.q + y.q := by
  have hx := zalign_cast x (min x.k y.k) (min_le_left _ _)
  have hy := zalign_cast y (min x.k y.k) (min_le_right _ _)
  unfold Zdy.q at hx hy
  unfold zAdd Zdy.q
  push_cast
  push_cast at hx hy
  rw [add_mul, hx, hy]

theorem zNeg_q (x : Zdy) : (zNeg x).q = -x.q := by
  unfold zNeg Zdy.q
  push_cast
  ring

theorem zSub_q (x y : Zdy) : (zSub x y).q = x.q - y.q := by
  unfold zSub
  rw [zAdd_q, zNeg_q]
  ring

theorem zShift_q (x : Zdy) (z : ℤ) : (zShift x z).q = x.q * (2 : ℚ) ^ z := by
  unfold zShift Zdy.q
  rw [zpow_add₀ (two_ne_zero : (2 : ℚ) ≠ 0)]
  ring

theorem zLe_iff (x y : Zdy) : zLe x y = true ↔ x.q ≤ y.q := by
  unfold zLe
  rw [decide_eq_true_eq]
  have hp : (0 : ℚ) < (2 : ℚ) ^ (min x.k y.k) := by positivity
  constructor
  · intro hab
    rw [← zalign_cast x (min x.k y.k) (min_le_left _ _),
        ← zalign_cast y (min x.k y.k) (min_le_right _ _)]
    exact mul_le_mul_of_nonneg_right (by exact_mod_cast hab) (le_of_lt hp)
  · intro hq
    rw [← zalign_cast x (min x.k y.k) (min_le_left _ _),
        ← zalign_cast y (min x.k y.k) (min_le_right _ _)] at hq
    exact_mod_cast le_of_mul_le_mul_right hq hp

theorem zMin_q (x y : Zdy) : (zMin x y).q = min x.q y.q := by
  unfold zMin
  by_cases h : zLe x y = true
  · rw [if_pos h, min_eq_left ((zLe_iff x y).mp h)]
  · have : ¬ x.q ≤ y.q := fun hc => h ((zLe_iff x y).mpr hc)
    rw [if_neg (by simpa using h), min_eq_right (le_of_not_le this)]

theorem zMax_q (x y : Zdy) : (zMax x y).q = max x.q y.q := by
  unfold zMax
  by_cases h : zLe x y = true
  · rw [if_pos h, max_eq_right ((zLe_iff x y).mp h)]
  · have : ¬ x.q ≤ y.q := fun hc => h ((zLe_iff x y).mpr hc)
    rw [if_neg (by simpa using h), max_eq_left (le_of_not_le this)]

theorem mul_le_max2 (a b1 b2 y : ℚ) (h1 : b1 ≤ y) (h2 : y ≤ b2) :
    a * y ≤ max (a * b1) (a * b2) := by
  rcases le_total 0 a with ha | ha
  · exact le_max_of_le_right (mul_le_mul_of_nonneg_left h2 ha)
  · exact le_max_of_le_left (mul_le_mul_of_nonpos_left h1 ha)

theorem min2_le_mul (a b1 b2 y : ℚ) (h1 : b1 ≤ y) (h2 : y ≤ b2) :
    min (a * b1) (a * b2) ≤ a * y := by
  rcases le_total 0 a with ha | ha
  · exact min_le_of_left_le (mul_le_mul_of_nonneg_left h1 ha)
  · exact min_le_of_right_le (mul_le_mul_of_nonpos_left h2 ha)

theorem ZIv.mul_memQ (A B : ZIv) (x y : ℚ) (hx : A.memQ x) (hy : B.memQ y) :
    (A.mul B).memQ (x * y) := by
  obtain ⟨hx1, hx2⟩ := hx
  obtain ⟨hy1, hy2⟩ := hy
  constructor
  · show (zMin (zMin (zMul A.lo B.lo) (zMul A.lo B.hi)) (zMin (zMul A.hi B.lo) (zMul A.hi B.hi))).q ≤ x * y
    rw [zMin_q, zMin_q, zMin_q, zMul_q, zMul_q, zMul_q, zMul_q]
    rcases le_total 0 y with hy0 | hy0
    · calc min (min (A.lo.q * B.lo.q) (A.lo.q * B.hi.q)) (min (A.hi.q * B.lo.q) (A.hi.q * B.hi.q))
          ≤ min (A.lo.q * B.lo.q) (A.lo.q * B.hi.q) := min_le_left _ _
      _ ≤ A.lo.q * y := min2_le_mul _ _ _ _ hy1 hy2
      _ ≤ x * y := mul_le_mul_of_nonneg_right hx1 hy0
    · calc min (min (A.lo.q * B.lo.q) (A.lo.q * B.hi.q)) (min (A.hi.q * B.lo.q) (A.hi.q * B.hi.q))
          ≤ min (A.hi.q * B.lo.q) (A.hi.q * B.hi.q) := min_le_right _ _
      _ ≤ A.hi.q * y := min2_le_mul _ _ _ _ hy1 hy2
      _ ≤ x * y := mul_le_mul_of_nonpos_right hx2 hy0
  · show x * y ≤ (zMax (zMax (zMul A.lo B.lo) (zMul A.lo B.hi)) (zMax (zMul A.hi B.lo) (zMul A.hi B.hi))).q
    rw [zMax_q, zMax_q, zMax_q, zMul_q, zMul_q, zMul_q, zMul_q]
    rcases le_total 0 y with hy0 | hy0
    · calc x * y ≤ A.hi.q * y := mul_le_mul_of_nonneg_right hx2 hy0
      _ ≤ max (A.hi.q * B.lo.q) (A.hi.q * B.hi.q) := mul_le_max2 _ _ _ _ hy1 hy2
      _ ≤ max (max (A.lo.q * B.lo.q) (A.lo.q * B.hi.q)) (max (A.hi.q * B.lo.q) (A.hi.q * B.hi.q)) :=
            le_max_right _ _
    · calc x * y ≤ A.lo.q * y := mul_le_mul_of_nonpos_right hx1 hy0
      _ ≤ max (A.lo.q * B.lo.q) (A.lo.q * B.hi.q) := mul_le_max2 _ _ _ _ hy1 hy2
      _ ≤ max (max (A.lo.q * B.lo.q) (A.lo.q * B.hi.q)) (max (A.hi.q * B.lo.q) (A.hi.q * B.hi.q)) :=
            le_max_left _ _

theorem ZIv.sub_memQ (A B : ZIv) (x y : ℚ) (hx : A.memQ x) (hy : B.memQ y) :
    (A.sub B).memQ (x - y) := by
  obtain ⟨hx1, hx2⟩ := hx
  obtain ⟨hy1, hy2⟩ := hy
  constructor
  · show (zSub A.lo B.hi).q ≤ x - y
    rw [zSub_q]
    linarith
  · show x - y ≤ (zSub A.hi B.lo).q
    rw [zSub_q]
    linarith

theorem ZIv.absMax_bound (I : ZIv) (x : ℚ) (h : I.memQ x) : |x| ≤ (ZIv.absMax I).q := by
  obtain ⟨h1, h2⟩ := h
  unfold ZIv.absMax
  rw [zMax_q, zNeg_q]
  apply abs_le.mpr
  constructor
  · have := le_max_left (-I.lo.q) I.hi.q
    linarith
  · have := le_max_right (-I.lo.q) I.hi.q
    linarith

theorem ZIv.rnd_memQ (I : ZIv) (x w : ℚ) (hx : I.memQ x)
    (hw : |w - x| ≤ |x| * (2 : ℚ) ^ (-24 : ℤ) + (2 : ℚ) ^ (-150 : ℤ)) :
    (I.rnd).memQ w := by
  have habs := ZIv.absMax_bound I x hx
  obtain ⟨h1, h2⟩ := hx
  have hmul : |x| * (2 : ℚ) ^ (-24 : ℤ) ≤ (ZIv.absMax I).q * (2 : ℚ) ^ (-24 : ℤ) :=
    mul_le_mul_of_nonneg_right habs (by positivity)
  have h150 : (Zdy.q ⟨1, -150⟩) = (2 : ℚ) ^ (-150 : ℤ) := by
    unfold Zdy.q
    push_cast
    ring
  obtain ⟨hwa, hwb⟩ := abs_le.mp hw
  constructor
  · show (zSub I.lo (zAdd (zShift (ZIv.absMax I) (-24)) ⟨1, -150⟩)).q ≤ w
    rw [zSub_q, zAdd_q, zShift_q, h150]
    linarith
  · show w ≤ (zAdd I.hi (zAdd (zShift (ZIv.absMax I) (-24)) ⟨1, -150⟩)).q
    rw [zAdd_q, zAdd_q, zShift_q, h150]
    linarith

theorem inRange127_bound (I : ZIv) (x : ℚ) (h : I.memQ x) (hc : inRange127 I = true) :
    |x| ≤ (2 : ℚ) ^ (127 : ℤ) := by
  obtain ⟨h1, h2⟩ := h
  obtain ⟨hc1, hc2⟩ := Bool.and_eq_true_iff.mp hc
  have hlo := (zLe_iff _ _).mp hc1
  have hhi := (zLe_iff _ _).mp hc2
  have hloq : (Zdy.q ⟨-1, 127⟩) = -(2 : ℚ) ^ (127 : ℤ) := by
    unfold Zdy.q
    push_cast
    ring
  have hhiq : (Zdy.q ⟨1, 127⟩) = (2 : ℚ) ^ (127 : ℤ) := by
    unfold Zdy.q
    push_cast
    ring
  rw [hloq] at hlo
  rw [hhiq] at hhi
  apply abs_le.mpr
  constructor <;> linarith

set_option maxRecDepth 100000 in
set_option exponentiation.threshold 2000 in
theorem c8Check_all : ∀ E : ℕ, E < 255 → c8Check E = true := by decide

theorem dToZ_q (x : Dy) : (dToZ x).q = x.q := by
  unfold dToZ Zdy.q Dy.q
  push_cast
  ring

theorem sv_false_eq (x : Dy) : sv false x = x.q := rfl

theorem abs_sv_mul (sa sb : Bool) (x y : Dy) : |sv sa x * sv sb y| = x.q * y.q := by
  rw [abs_mul, sv_abs, sv_abs]

theorem halfDy_q : (Dy.q ⟨2 ^ 23, -24⟩) = 1 / 2 := by
  unfold Dy.q
  have h2 : ((2 ^ 23 : ℕ) : ℚ) = (2 : ℚ) ^ (23 : ℤ) := by exact_mod_cast (qpow_nat 23).symm
  rw [h2, ← zpow_add₀ (two_ne_zero : (2 : ℚ) ≠ 0)]
  norm_num

theorem thDy_q : (Dy.q ⟨2 ^ 23 + 2 ^ 22, -23⟩) = 3 / 2 := by
  unfold Dy.q
  have h2 : ((2 ^ 23 + 2 ^ 22 : ℕ) : ℚ) = 3 * (2 : ℚ) ^ (22 : ℤ) := by
    have : ((2 ^ 23 + 2 ^ 22 : ℕ) : ℚ) = 3 * ((2 ^ 22 : ℕ) : ℚ) := by
      push_cast
      ring
    rw [this]
    congr 1
    exact_mod_cast (qpow_nat 22).symm
  rw [h2, mul_assoc, ← zpow_add₀ (two_ne_zero : (2 : ℚ) ≠ 0)]
  norm_num

theorem halfIvC_mem : halfIvC.memQ (1 / 2) := by
  constructor <;> (unfold halfIvC Zdy.q; push_cast; norm_num)

theorem thIvC_mem : thIvC.memQ (3 / 2) := by
  constructor <;> (unfold thIvC Zdy.q; push_cast; norm_num)

theorem decodeHalfLit : decodeF 8 24 halfLit = FClass.fin false ⟨2 ^ 23, -24⟩ := by decide

theorem decodeTH : decodeF 8 24 THREE_HALFS = FClass.fin false ⟨2 ^ 23 + 2 ^ 22, -23⟩ := by decide

theorem c8_class_sound (E pat : ℕ) (hchk : c8Check E = true)
    (h1 : 1 ≤ pat) (h2 : pat ≤ 0x7f7fffff) (hEeq : pat / 2 ^ 23 = E) :
    ∃ s v, decodeF 8 24 (invSqrtBody pat) = FClass.fin s v := by
  simp only [c8Check, Bool.and_eq_true] at hchk
  obtain ⟨⟨⟨⟨hc1, hc2⟩, hc3⟩, hc4⟩, hc5⟩ := hchk
  have hW : WTF = 0x5f3759df := rfl
  have hE254 : E ≤ 254 := by omega
  have hilo : iLoC E ≤ pat := by
    unfold iLoC
    by_cases hE0 : E = 0 <;> simp [hE0] <;> omega
  have hihi : pat ≤ iHiC E := by
    unfold iHiC
    omega
  have hiHiB : iHiC E ≤ 0x7f7fffff := by
    unfold iHiC
    omega
  have hiLoB : iLoC E ≤ 0x7f7fffff := le_trans (le_trans hilo hihi) hiHiB
  -- input value membership
  have hdecy := decode32_pos_fin pat h2
  have hymem : (yIvC E).memQ ((finMagD pat).q) := by
    constructor
    · show (dToZ (finMagD (iLoC E))).q ≤ (finMagD pat).q
      rw [dToZ_q]
      exact finMag_mono _ _ hilo h2
    · show (finMagD pat).q ≤ (dToZ (finMagD (iHiC E))).q
      rw [dToZ_q]
      exact finMag_mono _ _ hihi hiHiB
  -- magic step pattern
  have hjlo : jLoC E ≤ WTF - pat / 2 := by
    unfold jLoC
    unfold iHiC
    omega
  have hjhi : WTF - pat / 2 ≤ jHiC E := by
    unfold jHiC
    have : iLoC E ≤ pat := hilo
    omega
  have hjHiB : jHiC E ≤ 0x7f7fffff := by
    unfold jHiC
    omega
  have hj1 : 1 ≤ WTF - pat / 2 := by omega
  have hjB : WTF - pat / 2 ≤ 0x7f7fffff := by omega
  have hdecy0 := decode32_pos_fin (WTF - pat / 2) hjB
  have hy0mem : (y0IvC E).memQ ((finMagD (WTF - pat / 2)).q) := by
    constructor
    · show (dToZ (finMagD (jLoC E))).q ≤ (finMagD (WTF - pat / 2)).q
      rw [dToZ_q]
      exact finMag_mono _ _ hjlo hjB
    · show (finMagD (WTF - pat / 2)).q ≤ (dToZ (finMagD (jHiC E))).q
      rw [dToZ_q]
      exact finMag_mono _ _ hjhi hjHiB
  -- step 1: x2 = fmulP pat halfLit
  have hmul1 : (ZIv.mul (yIvC E) halfIvC).memQ ((finMagD pat).q * (1 / 2)) :=
    ZIv.mul_memQ _ _ _ _ hymem halfIvC_mem
  have hbnd1 : (finMagD pat).q * (Dy.q ⟨2 ^ 23, -24⟩) ≤ (2 : ℚ) ^ (127 : ℤ) := by
    rw [halfDy_q]
    have := inRange127_bound _ _ hmul1 hc1
    exact le_trans (le_abs_self _) this
  obtain ⟨s2, v2, hdec2, herr2⟩ := fmul_sound32 pat halfLit false false _ _ hdecy decodeHalfLit hbnd1
  have herr2' : |sv s2 v2 - (finMagD pat).q * (1 / 2)|
      ≤ |(finMagD pat).q * (1 / 2)| * (2 : ℚ) ^ (-24 : ℤ) + (2 : ℚ) ^ (-150 : ℤ) := by
    have hx : sv false (finMagD pat) * sv false ⟨2 ^ 23, -24⟩ = (finMagD pat).q * (1 / 2) := by
      rw [sv_false_eq, sv_false_eq, halfDy_q]
    have habs : |(finMagD pat).q * (1 / 2)| = (finMagD pat).q * (Dy.q ⟨2 ^ 23, -24⟩) := by
      rw [← hx, abs_sv_mul]
    rw [habs, ← hx]
    exact herr2
  have hx2mem : (x2IvC E).memQ (sv s2 v2) :=
    ZIv.rnd_memQ _ _ _ hmul1 herr2'
  -- step 2: t1 = fmulP x2 y0
  have hmul2 : (ZIv.mul (x2IvC E) (y0IvC E)).memQ (sv s2 v2 * (finMagD (WTF - pat / 2)).q) :=
    ZIv.mul_memQ _ _ _ _ hx2mem hy0mem
  have hbnd2 : v2.q * (finMagD (WTF - pat / 2)).q ≤ (2 : ℚ) ^ (127 : ℤ) := by
    have hb : |sv s2 v2 * sv false (finMagD (WTF - pat / 2))| ≤ (2 : ℚ) ^ (127 : ℤ) :=
      inRange127_bound _ _ hmul2 hc2
    rw [abs_sv_mul] at hb
    exact hb
  obtain ⟨s3, v3, hdec3, herr3⟩ := fmul_sound32 _ _ s2 false _ _ hdec2 hdecy0 hbnd2
  have herr3' : |sv s3 v3 - sv s2 v2 * (finMagD (WTF - pat / 2)).q|
      ≤ |sv s2 v2 * (finMagD (WTF - pat / 2)).q| * (2 : ℚ) ^ (-24 : ℤ) + (2 : ℚ) ^ (-150 : ℤ) := by
    have habs : |sv s2 v2 * sv false (finMagD (WTF - pat / 2))| = v2.q * (finMagD (WTF - pat / 2)).q :=
      abs_sv_mul _ _ _ _
    rw [show (finMagD (WTF - pat / 2)).q = sv false (finMagD (WTF - pat / 2)) from rfl, habs]
    exact herr3
  have ht1mem : (t1IvC E).memQ (sv s3 v3) :=
    ZIv.rnd_memQ _ _ _ hmul2 herr3'
  -- step 3: t2 = fmulP t1 y0
  have hmul3 : (ZIv.mul (t1IvC E) (y0IvC E)).memQ (sv s3 v3 * (finMagD (WTF - pat / 2)).q) :=
    ZIv.mul_memQ _ _ _ _ ht1mem hy0mem
  have hbnd3 : v3.q * (finMagD (WTF - pat / 2)).q ≤ (2 : ℚ) ^ (127 : ℤ) := by
    have hb : |sv s3 v3 * sv false (finMagD (WTF - pat / 2))| ≤ (2 : ℚ) ^ (127 : ℤ) :=
      inRange127_bound _ _ hmul3 hc3
    rw [abs_sv_mul] at hb
    exact hb
  obtain ⟨s4, v4, hdec4, herr4⟩ := fmul_sound32 _ _ s3 false _ _ hdec3 hdecy0 hbnd3
  have herr4' : |sv s4 v4 - sv s3 v3 * (finMagD (WTF - pat / 2)).q|
      ≤ |sv s3 v3 * (finMagD (WTF - pat / 2)).q| * (2 : ℚ) ^ (-24 : ℤ) + (2 : ℚ) ^ (-150 : ℤ) := by
    have habs : |sv s3 v3 * sv false (finMagD (WTF - pat / 2))| = v3.q * (finMagD (WTF - pat / 2)).q :=
      abs_sv_mul _ _ _ _
    rw [show (finMagD (WTF - pat / 2)).q = sv false (finMagD (WTF - pat / 2)) from rfl, habs]
    exact herr4
  have ht2mem : (t2IvC E).memQ (sv s4 v4) :=
    ZIv.rnd_memQ _ _ _ hmul3 herr4'
  -- step 4: d = fsubP THREE_HALFS t2
  have hsubm : (ZIv.sub thIvC (t2IvC E)).memQ (3 / 2 - sv s4 v4) :=
    ZIv.sub_memQ _ _ _ _ thIvC_mem ht2mem
  have hbnd4 : |sv false ⟨2 ^ 23 + 2 ^ 22, -23⟩ - sv s4 v4| ≤ (2 : ℚ) ^ (127 : ℤ) := by
    have hb := inRange127_bound _ _ hsubm hc4
    rw [sv_false_eq, thDy_q]
    exact hb
  obtain ⟨s5, v5, hdec5, herr5⟩ := fsub_sound32 THREE_HALFS _ false s4 _ _ decodeTH hdec4 hbnd4
  have herr5' : |sv s5 v5 - (3 / 2 - sv s4 v4)|
      ≤ |3 / 2 - sv s4 v4| * (2 : ℚ) ^ (-24 : ℤ) + (2 : ℚ) ^ (-150 : ℤ) := by
    have hth : sv false ⟨2 ^ 23 + 2 ^ 22, -23⟩ = 3 / 2 := by
      rw [sv_false_eq, thDy_q]
    rw [← hth]
    exact herr5
  have hdmem : (dIvC E).memQ (sv s5 v5) :=
    ZIv.rnd_memQ _ _ _ hsubm herr5'
  -- step 5: result = fmulP y0 d
  have hmul5 : (ZIv.mul (y0IvC E) (dIvC E)).memQ ((finMagD (WTF - pat / 2)).q * sv s5 v5) :=
    ZIv.mul_memQ _ _ _ _ hy0mem hdmem
  have hbnd5 : (finMagD (WTF - pat / 2)).q * v5.q ≤ (2 : ℚ) ^ (127 : ℤ) := by
    have hb : |sv false (finMagD (WTF - pat / 2)) * sv s5 v5| ≤ (2 : ℚ) ^ (127 : ℤ) :=
      inRange127_bound _ _ hmul5 hc5
    rw [abs_sv_mul] at hb
    exact hb
  obtain ⟨s6, v6, hdec6, -⟩ := fmul_sound32 _ _ false s5 _ _ hdecy0 hdec5 hbnd5
  -- assemble
  refine ⟨s6, v6, ?_⟩
  have hwrap : (WTF + 2 ^ 32 - pat / 2) % 2 ^ 32 = WTF - pat / 2 := by omega
  show decodeF 8 24 (invSqrtBody pat) = FClass.fin s6 v6
  simp only [invSqrtBody]
  rw [hwrap]
  exact hdec6

theorem invSqrt_finite_of_posfinite (pat : ℕ) (hlt : pat < 2 ^ 32)
    (hdom : ∃ q : Dy, decodeF 8 24 pat = FClass.fin false q ∧ q.m ≠ 0) :
    ∃ s v, decodeF 8 24 (invSqrtBody pat) = FClass.fin s v := by
  obtain ⟨q, hdec, hm⟩ := hdom
  have hfacts : 1 ≤ pat ∧ pat ≤ 0x7f7fffff := by
    simp only [decodeF] at hdec
    split at hdec
    · split at hdec
      · exact absurd hdec (fun h => FClass.noConfusion h)
      · exact absurd hdec (fun h => FClass.noConfusion h)
    · rename_i hE255
      split at hdec
      · rename_i hE0
        injection hdec with hs hq
        have hsign : pat / 2 ^ (8 + 24 - 1) % 2 = 0 := by
          by_contra hc
          have : pat / 2 ^ (8 + 24 - 1) % 2 = 1 := by omega
          simp [this] at hs
          omega
        have hqm : q.m = pat % 2 ^ (24 - 1) := by
          rw [← hq]
        constructor
        · by_contra hc
          push_neg at hc
          interval_cases pat
          · simp at hqm
            exact hm hqm
        · omega
      · rename_i hE0
        injection hdec with hs hq
        have hsign : pat / 2 ^ (8 + 24 - 1) % 2 = 0 := by
          by_contra hc
          have : pat / 2 ^ (8 + 24 - 1) % 2 = 1 := by omega
          simp [this] at hs
          omega
        constructor
        · omega
        · omega
  exact c8_class_sound (pat / 2 ^ 23) pat
    (c8Check_all (pat / 2 ^ 23) (by omega)) hfacts.1 hfacts.2 rfl

theorem decode_maxw : decodeF 11 53 (f32toF64 f32MAXpat)
    = FClass.fin false ⟨(2 ^ 24 - 1) * 2 ^ 29, 75⟩ := by decide

theorem decode_minw : decodeF 11 53 (f32toF64 f32MINpat)
    = FClass.fin true ⟨(2 ^ 24 - 1) * 2 ^ 29, 75⟩ := by decide

theorem maxDy64_q : (Dy.q ⟨(2 ^ 24 - 1) * 2 ^ 29, 75⟩) = maxQ := by
  unfold Dy.q maxQ
  have h29 : (((2 ^ 24 - 1) * 2 ^ 29 : ℕ) : ℚ) = ((2 ^ 24 - 1 : ℕ) : ℚ) * (2 : ℚ) ^ (29 : ℤ) := by
    have h : ((2 ^ 29 : ℕ) : ℚ) = (2 : ℚ) ^ (29 : ℤ) := by exact_mod_cast (qpow_nat 29).symm
    rw [← h]
    push_cast
    ring
  rw [h29, mul_assoc, ← zpow_add₀ (two_ne_zero : (2 : ℚ) ≠ 0)]
  norm_num

theorem f64_range_iff (pat : ℕ) :
    (fgeP 11 53 pat (f32toF64 f32MINpat) && fleP 11 53 pat (f32toF64 f32MAXpat)) = true
      ↔ ∃ qv : ℚ, (decodeF 11 53 pat).qval = some qv ∧ -maxQ ≤ qv ∧ qv ≤ maxQ := by
  rw [Bool.and_eq_true]
  have hminq : sv true ⟨(2 ^ 24 - 1) * 2 ^ 29, 75⟩ = -maxQ := by
    rw [show sv true ⟨(2 ^ 24 - 1) * 2 ^ 29, 75⟩ = -(Dy.q ⟨(2 ^ 24 - 1) * 2 ^ 29, 75⟩) from rfl,
      maxDy64_q]
  have hmaxq : sv false ⟨(2 ^ 24 - 1) * 2 ^ 29, 75⟩ = maxQ := by
    rw [show sv false ⟨(2 ^ 24 - 1) * 2 ^ 29, 75⟩ = (Dy.q ⟨(2 ^ 24 - 1) * 2 ^ 29, 75⟩) from rfl,
      maxDy64_q]
  cases hd : decodeF 11 53 pat with
  | nan =>
    simp only [fgeP, fleP, decode_minw, decode_maxw, hd, FClass.qval]
    simp
  | inf s =>
    simp only [fgeP, fleP, decode_minw, decode_maxw, hd, FClass.qval]
    cases s <;> simp
  | fin s x =>
    simp only [fgeP, fleP, decode_minw, decode_maxw, hd, FClass.qval]
    rw [sleB_iff, sleB_iff, hminq, hmaxq]
    constructor
    · rintro ⟨hge, hle⟩
      exact ⟨sv s x, rfl, hge, hle⟩
    · rintro ⟨qv, hq, hl, hr⟩
      have : sv s x = qv := Option.some.inj hq
      rw [this]
      exact ⟨hl, hr⟩

theorem f64_qsqrt_eq (v : F64) :
    QSqrt.fast_inverse_sqrt v =
      (if (fgeP 11 53 v.pat (f32toF64 f32MINpat) && fleP 11 53 v.pat (f32toF64 f32MAXpat)) = true
       then QResult.ok (invSqrtBody (f64toF32 v.pat))
       else QResult.err QSqrtError.Overflow) := rfl

theorem band4 : inBand 0x3eff910f (49 / 100) (51 / 100) := by
  refine ⟨16748815 / 2 ^ 25, ?_, by norm_num, by norm_num⟩
  have hdec : decodeF 8 24 0x3eff910f = FClass.fin false ⟨16748815, -25⟩ := by decide
  rw [hdec]
  show some (Dy.q ⟨16748815, -25⟩) = some (16748815 / 2 ^ 25)
  congr 1
  unfold Dy.q
  rw [zpow_neg]
  norm_num

theorem band1 : inBand 0x3f7f910f (95 / 100) (105 / 100) := by
  refine ⟨16748815 / 2 ^ 24, ?_, by norm_num, by norm_num⟩
  have hdec : decodeF 8 24 0x3f7f910f = FClass.fin false ⟨16748815, -24⟩ := by decide
  rw [hdec]
  show some (Dy.q ⟨16748815, -24⟩) = some (16748815 / 2 ^ 24)
  congr 1
  unfold Dy.q
  rw [zpow_neg]
  norm_num

/-! The claims. -/
/-- Claim C1: for every f32 input y, fast_inverse_sqrt returns Ok of
exactly the canonical algorithm of the spec: reinterpret the bits of y
as a u32, apply the magic constant with a logical right shift by one,
reinterpret back, and apply exactly one Newton-Raphson step
y0 * (1.5 - (y * 0.5) * y0 * y0). -/
theorem claim_C1 (y : F32) :
    QSqrt.fast_inverse_sqrt y = QResult.ok (canonicalFastInverseSqrt y.pat) := rfl

/-- Claim C4: fast_inverse_sqrt never fails on the f32 entry point nor
on any implemented integer entry point: every such call returns Ok. -/
theorem claim_C4 :
    (∀ y : F32, ∃ v, QSqrt.fast_inverse_sqrt y = QResult.ok v)
    ∧ (∀ n : U8, ∃ v, QSqrt.fast_inverse_sqrt n = QResult.ok v)
    ∧ (∀ n : U16, ∃ v, QSqrt.fast_inverse_sqrt n = QResult.ok v)
    ∧ (∀ n : U32, ∃ v, QSqrt.fast_inverse_sqrt n = QResult.ok v)
    ∧ (∀ n : Usize, ∃ v, QSqrt.fast_inverse_sqrt n = QResult.ok v)
    ∧ (∀ n : I8, ∃ v, QSqrt.fast_inverse_sqrt n = QResult.ok v)
    ∧ (∀ n : I16, ∃ v, QSqrt.fast_inverse_sqrt n = QResult.ok v)
    ∧ (∀ n : I32, ∃ v, QSqrt.fast_inverse_sqrt n = QResult.ok v)
    ∧ (∀ n : Isize, ∃ v, QSqrt.fast_inverse_sqrt n = QResult.ok v) :=
  by
  and_intros <;> exact fun _ => ⟨_, rfl⟩

/-- Claim C5: every implemented integer entry point returns exactly the
result of the f32 path applied to the integer converted to f32; in
particular the values 4 and 1 of every integer type give the same
results as the f32 path on 4.0 (pattern 0x40800000) and 1.0
(pattern 0x3f800000). -/
theorem claim_C5 :
    (∀ n : U8, QSqrt.fast_inverse_sqrt n = QSqrt.fast_inverse_sqrt (F32.mk (intToF32 (n.val : ℤ))))
    ∧ (∀ n : U16, QSqrt.fast_inverse_sqrt n = QSqrt.fast_inverse_sqrt (F32.mk (intToF32 (n.val : ℤ))))
    ∧ (∀ n : U32, QSqrt.fast_inverse_sqrt n = QSqrt.fast_inverse_sqrt (F32.mk (intToF32 (n.val : ℤ))))
    ∧ (∀ n : Usize, QSqrt.fast_inverse_sqrt n = QSqrt.fast_inverse_sqrt (F32.mk (intToF32 (n.val : ℤ))))
    ∧ (∀ n : I8, QSqrt.fast_inverse_sqrt n = QSqrt.fast_inverse_sqrt (F32.mk (intToF32 n.val)))
    ∧ (∀ n : I16, QSqrt.fast_inverse_sqrt n = QSqrt.fast_inverse_sqrt (F32.mk (intToF32 n.val)))
    ∧ (∀ n : I32, QSqrt.fast_inverse_sqrt n = QSqrt.fast_inverse_sqrt (F32.mk (intToF32 n.val)))
    ∧ (∀ n : Isize, QSqrt.fast_inverse_sqrt n = QSqrt.fast_inverse_sqrt (F32.mk (intToF32 n.val)))
    ∧ QSqrt.fast_inverse_sqrt (4 : U8) = QSqrt.fast_inverse_sqrt (F32.mk 0x40800000)
    ∧ QSqrt.fast_inverse_sqrt (4 : U16) = QSqrt.fast_inverse_sqrt (F32.mk 0x40800000)
    ∧ QSqrt.fast_inverse_sqrt (4 : U32) = QSqrt.fast_inverse_sqrt (F32.mk 0x40800000)
    ∧ QSqrt.fast_inverse_sqrt (4 : Usize) = QSqrt.fast_inverse_sqrt (F32.mk 0x40800000)
    ∧ QSqrt.fast_inverse_sqrt (⟨4, by decide⟩ : I8) = QSqrt.fast_inverse_sqrt (F32.mk 0x40800000)
    ∧ QSqrt.fast_inverse_sqrt (⟨4, by decide⟩ : I16) = QSqrt.fast_inverse_sqrt (F32.mk 0x40800000)
    ∧ QSqrt.fast_inverse_sqrt (⟨4, by decide⟩ : I32) = QSqrt.fast_inverse_sqrt (F32.mk 0x40800000)
    ∧ QSqrt.fast_inverse_sqrt (⟨4, by decide⟩ : Isize) = QSqrt.fast_inverse_sqrt (F32.mk 0x40800000)
    ∧ QSqrt.fast_inverse_sqrt (1 : U8) = QSqrt.fast_inverse_sqrt (F32.mk 0x3f800000)
    ∧ QSqrt.fast_inverse_sqrt (1 : U16) = QSqrt.fast_inverse_sqrt (F32.mk 0x3f800000)
    ∧ QSqrt.fast_inverse_sqrt (1 : U32) = QSqrt.fast_inverse_sqrt (F32.mk 0x3f800000)
    ∧ QSqrt.fast_inverse_sqrt (1 : Usize) = QSqrt.fast_inverse_sqrt (F32.mk 0x3f800000)
    ∧ QSqrt.fast_inverse_sqrt (⟨1, by decide⟩ : I8) = QSqrt.fast_inverse_sqrt (F32.mk 0x3f800000)
    ∧ QSqrt.fast_inverse_sqrt (⟨1, by decide⟩ : I16) = QSqrt.fast_inverse_sqrt (F32.mk 0x3f800000)
    ∧ QSqrt.fast_inverse_sqrt (⟨1, by decide⟩ : I32) = QSqrt.fast_inverse_sqrt (F32.mk 0x3f800000)
    ∧ QSqrt.fast_inverse_sqrt (⟨1, by decide⟩ : Isize) = QSqrt.fast_inverse_sqrt (F32.mk 0x3f800000) :=
  by
  and_intros <;> first
    | exact fun _ => rfl
    | decide

/-- Claim C3 counterexample: the source does not implement QSqrt for
u64 nor for i64; the macro invocation impl_types! lists only u32, u16,
u8, i32, i16, i8, usize, isize, so the stated set, which includes int64
and uint64, is not covered. -/
theorem claim_C3_counterexample :
    ¬ (RustType.u64 ∈ qsqrtImplTypes ∧ RustType.i64 ∈ qsqrtImplTypes) := by decide

/-- Claim C3 (amended): the fast_inverse_sqrt capability is defined
exactly for f32, f64, u8, u16, u32, i8, i16, i32, usize and isize, not
for u64 or i64; every implemented integer type converts to f32 and
delegates to the f32 path. -/
theorem claim_C3 :
    qsqrtImplTypes = [RustType.f32, RustType.f64, RustType.u32, RustType.u16, RustType.u8,
        RustType.i32, RustType.i16, RustType.i8, RustType.usize, RustType.isize]
    ∧ RustType.u64 ∉ qsqrtImplTypes ∧ RustType.i64 ∉ qsqrtImplTypes
    ∧ (∀ n : U8, QSqrt.fast_inverse_sqrt n = QSqrt.fast_inverse_sqrt (F32.mk (intToF32 (n.val : ℤ))))
    ∧ (∀ n : U16, QSqrt.fast_inverse_sqrt n = QSqrt.fast_inverse_sqrt (F32.mk (intToF32 (n.val : ℤ))))
    ∧ (∀ n : U32, QSqrt.fast_inverse_sqrt n = QSqrt.fast_inverse_sqrt (F32.mk (intToF32 (n.val : ℤ))))
    ∧ (∀ n : Usize, QSqrt.fast_inverse_sqrt n = QSqrt.fast_inverse_sqrt (F32.mk (intToF32 (n.val : ℤ))))
    ∧ (∀ n : I8, QSqrt.fast_inverse_sqrt n = QSqrt.fast_inverse_sqrt (F32.mk (intToF32 n.val)))
    ∧ (∀ n : I16, QSqrt.fast_inverse_sqrt n = QSqrt.fast_inverse_sqrt (F32.mk (intToF32 n.val)))
    ∧ (∀ n : I32, QSqrt.fast_inverse_sqrt n = QSqrt.fast_inverse_sqrt (F32.mk (intToF32 n.val)))
    ∧ (∀ n : Isize, QSqrt.fast_inverse_sqrt n = QSqrt.fast_inverse_sqrt (F32.mk (intToF32 n.val))) :=
  by
  and_intros <;> first
    | exact fun _ => rfl
    | exact rfl
    | decide

set_option maxRecDepth 100000 in
/-- Claim C2: the f64 entry point fails with Overflow exactly when the
input value does not satisfy f32::MIN <= v <= f32::MAX, where the
bounds are the least and greatest finite f32 values, with magnitude
(2 ^ 24 - 1) * 2 ^ 104; otherwise it narrows the value to f32 and
returns the f32 path on the narrowed value.  The boundary is inclusive:
f32::MAX widened to f64 succeeds, while f32::MAX * 2.0 computed in f64
fails with Overflow. -/
theorem claim_C2 :
    (∀ v : F64, v.pat < 2 ^ 64 →
      ((QSqrt.fast_inverse_sqrt v = QResult.err QSqrtError.Overflow ↔
         ¬ ∃ qv : ℚ, (decodeF 11 53 v.pat).qval = some qv ∧ -maxQ ≤ qv ∧ qv ≤ maxQ)
       ∧ (∀ qv : ℚ, (decodeF 11 53 v.pat).qval = some qv → -maxQ ≤ qv → qv ≤ maxQ →
           QSqrt.fast_inverse_sqrt v = QSqrt.fast_inverse_sqrt (F32.mk (f64toF32 v.pat)))))
    ∧ (∃ r, QSqrt.fast_inverse_sqrt (F64.mk (f32toF64 f32MAXpat)) = QResult.ok r)
    ∧ QSqrt.fast_inverse_sqrt (F64.mk (fmulP 11 53 (f32toF64 f32MAXpat) twoF64pat))
        = QResult.err QSqrtError.Overflow := by
  refine ⟨?_, ⟨528453904, by decide⟩, by decide⟩
  intro v hv
  constructor
  · rw [f64_qsqrt_eq]
    by_cases hc : (fgeP 11 53 v.pat (f32toF64 f32MINpat)
        && fleP 11 53 v.pat (f32toF64 f32MAXpat)) = true
    · rw [if_pos hc]
      constructor
      · intro habs
        exact QResult.noConfusion habs
      · intro hno
        exact absurd ((f64_range_iff v.pat).mp hc) hno
    · rw [if_neg hc]
      constructor
      · intro _ hex
        exact hc ((f64_range_iff v.pat).mpr hex)
      · intro _
        rfl
  · intro qv hq hl hr
    have hc : (fgeP 11 53 v.pat (f32toF64 f32MINpat)
        && fleP 11 53 v.pat (f32toF64 f32MAXpat)) = true :=
      (f64_range_iff v.pat).mpr ⟨qv, hq, hl, hr⟩
    rw [f64_qsqrt_eq, if_pos hc]
    rfl

set_option maxRecDepth 100000 in
/-- Claim C2 witness: at the concrete out-of-range input
f32::MAX * 2.0 the overflow characterization holds. -/
theorem claim_C2_witness :
    (F64.mk (fmulP 11 53 (f32toF64 f32MAXpat) twoF64pat)).pat < 2 ^ 64 ∧
      (QSqrt.fast_inverse_sqrt (F64.mk (fmulP 11 53 (f32toF64 f32MAXpat) twoF64pat))
          = QResult.err QSqrtError.Overflow ↔
        ¬ ∃ qv : ℚ, (decodeF 11 53 (F64.mk (fmulP 11 53 (f32toF64 f32MAXpat) twoF64pat)).pat).qval
            = some qv ∧ -maxQ ≤ qv ∧ qv ≤ maxQ) :=
  ⟨by decide, (claim_C2.1 (F64.mk (fmulP 11 53 (f32toF64 f32MAXpat) twoF64pat)) (by decide)).1⟩

/-- Claim C6: fast_inverse_sqrt_unchecked is the single wrapper
unwrapping the checked operation: it returns exactly v when the checked
operation returns Ok v, and panics, modeled as none, when the checked
operation returns Err Overflow. -/
theorem claim_C6 :
    ∀ {α : Type} [QSqrt α] (x : α),
      fast_inverse_sqrt_unchecked x = (QSqrt.fast_inverse_sqrt x).toOption
      ∧ (∀ v, QSqrt.fast_inverse_sqrt x = QResult.ok v → fast_inverse_sqrt_unchecked x = some v)
      ∧ (QSqrt.fast_inverse_sqrt x = QResult.err QSqrtError.Overflow →
          fast_inverse_sqrt_unchecked x = none) := by
  intro α inst x
  refine ⟨rfl, ?_, ?_⟩
  · intro v h
    unfold fast_inverse_sqrt_unchecked
    rw [h]
    rfl
  · intro h
    unfold fast_inverse_sqrt_unchecked
    rw [h]
    rfl

set_option maxRecDepth 100000 in
/-- Claim C6 witness: at the out-of-range f64 input f32::MAX * 2.0 the
unchecked form panics (none), and on f32 input 4.0 it returns the value
of the checked form. -/
theorem claim_C6_witness :
    QSqrt.fast_inverse_sqrt (F64.mk (fmulP 11 53 (f32toF64 f32MAXpat) twoF64pat))
        = QResult.err QSqrtError.Overflow
    ∧ fast_inverse_sqrt_unchecked (F64.mk (fmulP 11 53 (f32toF64 f32MAXpat) twoF64pat)) = none
    ∧ QSqrt.fast_inverse_sqrt (F32.mk 0x40800000) = QResult.ok 0x3eff910f
    ∧ fast_inverse_sqrt_unchecked (F32.mk 0x40800000) = some 0x3eff910f :=
  ⟨by decide, (claim_C6 (F64.mk (fmulP 11 53 (f32toF64 f32MAXpat) twoF64pat))).2.2 (by decide),
   by decide, (claim_C6 (F32.mk 0x40800000)).2.1 0x3eff910f (by decide)⟩

/-- Claim C9: both operations are deterministic pure functions of their
input: equal inputs of any supported type produce equal results; the
embedding itself is state-free. -/
theorem claim_C9 :
    ∀ {α : Type} [QSqrt α] (x y : α), x = y →
      QSqrt.fast_inverse_sqrt x = QSqrt.fast_inverse_sqrt y
      ∧ fast_inverse_sqrt_unchecked x = fast_inverse_sqrt_unchecked y := by
  intro α inst x y h
  rw [h]
  exact ⟨rfl, rfl⟩

/-- Claim C9 witness: determinism at the concrete f32 input 4.0. -/
theorem claim_C9_witness :
    (F32.mk 0x40800000) = (F32.mk 0x40800000) ∧
      (QSqrt.fast_inverse_sqrt (F32.mk 0x40800000) = QSqrt.fast_inverse_sqrt (F32.mk 0x40800000)
       ∧ fast_inverse_sqrt_unchecked (F32.mk 0x40800000)
           = fast_inverse_sqrt_unchecked (F32.mk 0x40800000)) :=
  ⟨rfl, claim_C9 (F32.mk 0x40800000) (F32.mk 0x40800000) rfl⟩

set_option maxRecDepth 100000 in
/-- Claim C10: a f64 input that is NaN, positive infinity or negative
infinity fails the range check, because IEEE comparisons with NaN are
false and the infinities lie outside the bounds, so the checked
operation returns Err Overflow for all of them. -/
theorem claim_C10 :
    (∀ pat : ℕ, decodeF 11 53 pat = FClass.nan →
        QSqrt.fast_inverse_sqrt (F64.mk pat) = QResult.err QSqrtError.Overflow)
    ∧ QSqrt.fast_inverse_sqrt (F64.mk 0x7ff0000000000000) = QResult.err QSqrtError.Overflow
    ∧ QSqrt.fast_inverse_sqrt (F64.mk 0xfff0000000000000) = QResult.err QSqrtError.Overflow := by
  refine ⟨?_, by decide, by decide⟩
  intro pat h
  rw [f64_qsqrt_eq]
  have hc : (fgeP 11 53 (F64.mk pat).pat (f32toF64 f32MINpat)
      && fleP 11 53 (F64.mk pat).pat (f32toF64 f32MAXpat)) = false := by
    show (fgeP 11 53 pat (f32toF64 f32MINpat) && fleP 11 53 pat (f32toF64 f32MAXpat)) = false
    simp [fgeP, fleP, decode_minw, decode_maxw, h]
  rw [hc]
  simp

set_option maxRecDepth 100000 in
/-- Claim C10 witness: the canonical quiet NaN pattern produces Err
Overflow through the NaN case of the theorem. -/
theorem claim_C10_witness :
    decodeF 11 53 0x7ff8000000000000 = FClass.nan ∧
      QSqrt.fast_inverse_sqrt (F64.mk 0x7ff8000000000000) = QResult.err QSqrtError.Overflow :=
  ⟨by decide, claim_C10.1 0x7ff8000000000000 (by decide)⟩

/-- Claim C8: for every in-domain f32 input, finite with sign bit clear
and nonzero magnitude, the checked operation returns Ok of a bit
pattern that decodes to a finite value: the algorithm never produces a
NaN or an infinity for such inputs. -/
theorem claim_C8 (y : F32) (hp : y.pat < 2 ^ 32)
    (hdom : ∃ q : Dy, decodeF 8 24 y.pat = FClass.fin false q ∧ q.m ≠ 0) :
    ∃ r s v, QSqrt.fast_inverse_sqrt y = QResult.ok r ∧ decodeF 8 24 r = FClass.fin s v := by
  obtain ⟨s, v, h⟩ := invSqrt_finite_of_posfinite y.pat hp hdom
  exact ⟨invSqrtBody y.pat, s, v, rfl, h⟩

/-- Claim C8 witness: at the f32 input 1.0 the output decodes to a
finite value. -/
theorem claim_C8_witness :
    ((F32.mk 0x3f800000).pat < 2 ^ 32
      ∧ ∃ q : Dy, decodeF 8 24 (F32.mk 0x3f800000).pat = FClass.fin false q ∧ q.m ≠ 0)
    ∧ (∃ r s v, QSqrt.fast_inverse_sqrt (F32.mk 0x3f800000) = QResult.ok r
        ∧ decodeF 8 24 r = FClass.fin s v) :=
  ⟨⟨by decide, ⟨⟨2 ^ 23, -23⟩, by decide, by decide⟩⟩,
   claim_C8 (F32.mk 0x3f800000) (by decide) ⟨⟨2 ^ 23, -23⟩, by decide, by decide⟩⟩

/-- Claim C7: on the value four of every supported input type the
unchecked operation returns a value strictly between 0.49 and 0.51, and
on the f32 input 1.0 a value strictly between 0.95 and 1.05. -/
theorem claim_C7 :
    (∃ r, fast_inverse_sqrt_unchecked (F32.mk 0x40800000) = some r
      ∧ inBand r (49 / 100) (51 / 100))
    ∧ (∃ r, fast_inverse_sqrt_unchecked (F64.mk 0x4010000000000000) = some r
      ∧ inBand r (49 / 100) (51 / 100))
    ∧ (∃ r, fast_inverse_sqrt_unchecked (4 : U8) = some r ∧ inBand r (49 / 100) (51 / 100))
    ∧ (∃ r, fast_inverse_sqrt_unchecked (4 : U16) = some r ∧ inBand r (49 / 100) (51 / 100))
    ∧ (∃ r, fast_inverse_sqrt_unchecked (4 : U32) = some r ∧ inBand r (49 / 100) (51 / 100))
    ∧ (∃ r, fast_inverse_sqrt_unchecked (4 : Usize) = some r ∧ inBand r (49 / 100) (51 / 100))
    ∧ (∃ r, fast_inverse_sqrt_unchecked (⟨4, by decide⟩ : I8) = some r
      ∧ inBand r (49 / 100) (51 / 100))
    ∧ (∃ r, fast_inverse_sqrt_unchecked (⟨4, by decide⟩ : I16) = some r
      ∧ inBand r (49 / 100) (51 / 100))
    ∧ (∃ r, fast_inverse_sqrt_unchecked (⟨4, by decide⟩ : I32) = some r
      ∧ inBand r (49 / 100) (51 / 100))
    ∧ (∃ r, fast_inverse_sqrt_unchecked (⟨4, by decide⟩ : Isize) = some r
      ∧ inBand r (49 / 100) (51 / 100))
    ∧ (∃ r, fast_inverse_sqrt_unchecked (F32.mk 0x3f800000) = some r
      ∧ inBand r (95 / 100) (105 / 100)) :=
  ⟨⟨0x3eff910f, by decide, band4⟩, ⟨0x3eff910f, by decide, band4⟩,
   ⟨0x3eff910f, by decide, band4⟩, ⟨0x3eff910f, by decide, band4⟩,
   ⟨0x3eff910f, by decide, band4⟩, ⟨0x3eff910f, by decide, band4⟩,
   ⟨0x3eff910f, by decide, band4⟩, ⟨0x3eff910f, by decide, band4⟩,
   ⟨0x3eff910f, by decide, band4⟩, ⟨0x3eff910f, by decide, band4⟩,
   ⟨0x3f7f910f, by decide, band1⟩⟩
